import Mathlib

/-!
# Windowed multi-scalar multiplication of `prover/gextra.go`

A shallow embedding of the table-based multi-scalar multiplication of
`src/prover/gextra.go`.

* Curve points (`*bn256.G1`, `*bn256.G2`) are the elements of an abstract
  additive commutative group `G`; `new(bn256.G1).ScalarBaseMult(big.NewInt(0))`
  is `0` and `e.Add(x, y)` is `x + y`.  The source of the `G2` functions is the
  source of the `G1` functions with the point type renamed, so one generic
  development covers both groups.
* Non-negative `*big.Int` scalars are natural numbers.
* A Go slice is a list whose capacity equals its length; an out-of-range index
  or slice bound (a run-time panic) is the result `none`.
* Go `int` and `uint` are 64 bits wide.  The shift `1<<gsize` and the `uint`
  arithmetic of `getBit` wrap.  Lengths and `gsize` are natural numbers and the
  other integer expressions are computed exactly: their values are bounded by
  `len(a) + gsize`, and the routines build lists of `gsize` elements, so this
  bound fits an `int` on every input that fits in memory.
* A `for` loop whose number of iterations is known on entry is a recursion on
  that number.
* `cryptoConstants.Q.BitLen()` is not part of the sources at hand and is the
  parameter `nbitsQ`.
-/

namespace Prover

/-! ## Machine integers and big integers -/

/-- Two's complement wrap-around of a mathematical integer to a 64-bit Go `int`. -/
def wrapInt (x : Int) : Int := (x + 2 ^ 63) % 2 ^ 64 - 2 ^ 63

/-- Go `1<<n` at type `int`. -/
def shl1 (n : Nat) : Int := wrapInt (2 ^ n)

/-- Wrap-around of a natural number to a 64-bit Go `uint`. -/
def wrapUint (x : Nat) : Nat := x % 2 ^ 64

/-- Number of halvings that take `x` to zero, with `fuel` as recursion bound. -/
def BitLen.go : Nat → Nat → Nat
  | 0, _ => 0
  | fuel + 1, x => if x = 0 then 0 else BitLen.go fuel (x / 2) + 1

/-- `(*big.Int).BitLen` of a non-negative integer: the length of its binary
representation, `0` for `0`. -/
def BitLen (x : Nat) : Nat := BitLen.go x x

/-- `(*big.Int).Bit` of a non-negative integer: the bit at position `i`. -/
def Bit (x i : Nat) : Nat := x / 2 ^ i % 2

/-- Slice expression `l[lo:hi]`. -/
def slice {α : Type} (l : List α) (lo hi : Int) : Option (List α) :=
  if 0 ≤ lo ∧ lo ≤ hi ∧ hi ≤ (l.length : Int) then
    some ((l.take hi.toNat).drop lo.toNat)
  else none

/-- Slice expression `l[lo:]`. -/
def sliceFrom {α : Type} (l : List α) (lo : Int) : Option (List α) :=
  if 0 ≤ lo ∧ lo ≤ (l.length : Int) then some (l.drop lo.toNat) else none

/-! ## Bit-window extraction -/

/-- Source `getMsb`: the largest bit length in a group of scalars. -/
def getMsb (k : List Nat) : Nat :=
  k.foldl (fun msb el => if BitLen el > msb then BitLen el else msb) 0

/-- Loop of `getBit`: `idx` is the position of the next scalar and
`table_idx` the index assembled so far. -/
def getBit.loop (i : Nat) : List Nat → Nat → Nat → Nat
  | [], _, table_idx => table_idx
  | el :: rest, idx, table_idx =>
    getBit.loop i rest (idx + 1) (wrapUint (table_idx + wrapUint (Bit el i <<< idx)))

/-- Source `getBit`: bit `i` of every scalar of the group, packed into one `uint`. -/
def getBit (k : List Nat) (i : Nat) : Nat := getBit.loop i k 0 0

/-! ## Precomputed table -/

/-- Serialization capability of the curve layer: `Marshal` and the effect of
`Unmarshal` on its receiver (the error result is dropped by the caller). -/
class Codec (G : Type) where
  /-- Encoding of a point. -/
  Marshal : G → List Nat
  /-- New value of the receiver after decoding the given bytes into it. -/
  Unmarshal : G → List Nat → G

/-- Source `TableG1` (and `TableG2`). -/
structure TableG1 (G : Type) where
  /-- The table entries. -/
  data : List G

/-- Loop variables of `NewTableG1`. -/
structure TableVars (G : Type) where
  /-- Entries appended so far. -/
  table : List G
  /-- Last power of two met by the loop counter. -/
  last_pow2 : Nat
  /-- Number of base points consumed. -/
  nelems : Nat

/-- One iteration of the loop of `NewTableG1`, at loop counter `i`. -/
def NewTableG1.body {G : Type} [Add G] (a_ext : List G) (st : TableVars G) (i : Nat) :
    Option (TableVars G) :=
  if i &&& (i - 1) = 0 then
    (a_ext[st.nelems]?).map fun p => ⟨st.table ++ [p], i, st.nelems + 1⟩
  else if st.last_pow2 ≤ i then
    (st.table[st.last_pow2]?).bind fun x =>
      (st.table[i - st.last_pow2]?).map fun y => ⟨st.table ++ [x + y], st.last_pow2, st.nelems⟩
  else none

/-- The loop variables of `NewTableG1` after the iterations `i = 1, ..., n`. -/
def NewTableG1.loop {G : Type} [Zero G] [Add G] (a_ext : List G) : Nat → Option (TableVars G)
  | 0 => some ⟨[0], 1, 0⟩
  | n + 1 => (NewTableG1.loop a_ext n).bind fun st => NewTableG1.body a_ext st (n + 1)

/-- Source `NewTableG1`: the loop `for i := 1; i < 1<<gsize; i++` runs
`(1<<gsize) - 1` times when that is positive and not at all otherwise. -/
def NewTableG1 {G : Type} [Zero G] [Add G] [Codec G] (a : List G) (gsize : Nat)
    (toaffine : Bool) : Option (TableG1 G) :=
  let a_ext := a ++ List.replicate (gsize - a.length) 0
  (NewTableG1.loop a_ext (shl1 gsize - 1).toNat).map fun st =>
    if toaffine then ⟨st.table.map fun p => Codec.Unmarshal p (Codec.Marshal p)⟩
    else ⟨st.table⟩

/-- Source `TableG1.Marshal`: the encodings of the entries are appended to
`info` in the order of the table. -/
def TableG1.Marshal {G : Type} [Codec G] (t : TableG1 G) : List Nat :=
  t.data.foldl (fun info el => info ++ Codec.Marshal el) []

/-! ## Windowed multiplier -/

/-- Final `if Q_prev != nil` of every multiplication routine. -/
def addPrev {G : Type} [Add G] (Q_prev : Option G) (Q : G) : G :=
  match Q_prev with
  | some q => Q + q
  | none => Q

/-- Loop of `MulTableG1` with `n` iterations left, that is `i = n-1, ..., 0`. -/
def MulTableG1.loop {G : Type} [Add G] (t : TableG1 G) (k_ext : List Nat) : Nat → G → Option G
  | 0, Q => some Q
  | n + 1, Q =>
    if getBit k_ext n ≠ 0 then
      (t.data[getBit k_ext n]?).bind fun e => MulTableG1.loop t k_ext n (Q + Q + e)
    else MulTableG1.loop t k_ext n (Q + Q)

/-- Source `MulTableG1`. -/
def MulTableG1 {G : Type} [Zero G] [Add G] (t : TableG1 G) (k : List Nat) (Q_prev : Option G)
    (gsize : Nat) : Option G :=
  let k_ext := k ++ List.replicate (gsize - k.length) 0
  (MulTableG1.loop t k_ext (getMsb k_ext) 0).map (addPrev Q_prev)

/-- Inner loop of the no-doubling routines over one table, with `n` bit
positions left: entry `getBit ks i` of the table is added to adder `Q[i]`. -/
def addBits {G : Type} [Add G] (t : TableG1 G) (ks : List Nat) : Nat → List G → Option (List G)
  | 0, Q => some Q
  | n + 1, Q =>
    if getBit ks n ≠ 0 then
      (Q[n]?).bind fun q =>
        (t.data[getBit ks n]?).bind fun e => addBits t ks n (Q.set n (q + e))
    else addBits t ks n Q

/-- Consolidation loop of the no-doubling routines with `n` iterations left,
that is `i = n, ..., 1`. -/
def consolidate.loop {G : Type} [Add G] (Q : List G) : Nat → G → Option G
  | 0, R => some R
  | n + 1, R => (Q[n]?).bind fun q => consolidate.loop Q n (R + R + q)

/-- Consolidation of the adders `Q` and the final addition of `Q_prev`. -/
def consolidate {G : Type} [Add G] (Q : List G) (nbitsQ : Nat) (Q_prev : Option G) : Option G :=
  if nbitsQ = 0 then none
  else (Q[nbitsQ - 1]?).bind fun R =>
    (consolidate.loop Q (nbitsQ - 1) R).map (addPrev Q_prev)

/-- Adders of `MulTableNoDoubleG1` after the tables `j = 0, ..., n-1`. -/
def MulTableNoDoubleG1.loop {G : Type} [Add G] (t : List (TableG1 G)) (k_ext : List Nat)
    (gsize : Nat) (Q0 : List G) : Nat → Option (List G)
  | 0 => some Q0
  | n + 1 =>
    (MulTableNoDoubleG1.loop t k_ext gsize Q0 n).bind fun Q =>
      (slice k_ext (n * gsize) ((n + 1) * gsize)).bind fun ks =>
        (t[n]?).bind fun tj => addBits tj ks (getMsb ks) Q

/-- Source `MulTableNoDoubleG1`. -/
def MulTableNoDoubleG1 {G : Type} [Zero G] [Add G] (nbitsQ : Nat) (t : List (TableG1 G))
    (k : List Nat) (Q_prev : Option G) (gsize : Nat) : Option G :=
  let min_nelems := t.length * gsize
  let k_ext := k ++ List.replicate (min_nelems - k.length) 0
  (MulTableNoDoubleG1.loop t k_ext gsize (List.replicate nbitsQ 0) t.length).bind fun Q =>
    consolidate Q nbitsQ Q_prev

/-! ## Chunked orchestration -/

/-- Accumulator of `ScalarMultG1` after the chunks `i = 0, ..., n-1`. -/
def ScalarMultG1.loop {G : Type} [Zero G] [Add G] [Codec G] (a : List G) (k : List Nat)
    (gsize : Nat) : Nat → Option G
  | 0 => some 0
  | n + 1 =>
    (ScalarMultG1.loop a k gsize n).bind fun Q =>
      (slice a (n * gsize) ((n + 1) * gsize)).bind fun ai =>
        (NewTableG1 ai gsize false).bind fun table =>
          (slice k (n * gsize) ((n + 1) * gsize)).bind fun ki =>
            MulTableG1 table ki (some Q) gsize

/-- Source `ScalarMultG1`; the integer division by `gsize = 0` panics. -/
def ScalarMultG1 {G : Type} [Zero G] [Add G] [Codec G] (a : List G) (k : List Nat)
    (Q_prev : Option G) (gsize : Nat) : Option G :=
  if gsize = 0 then none
  else
    let ntables : Int := ((a.length + gsize - 1) / gsize : Nat)
    (ScalarMultG1.loop a k gsize (ntables - 1).toNat).bind fun Q =>
      (sliceFrom a ((ntables - 1) * gsize)).bind fun al =>
        (NewTableG1 al gsize false).bind fun table =>
          (sliceFrom k ((ntables - 1) * gsize)).bind fun kl =>
            (MulTableG1 table kl (some Q) gsize).map (addPrev Q_prev)

/-- Adders of `ScalarMultNoDoubleG1` after the chunks `j = 0, ..., n-1`. -/
def ScalarMultNoDoubleG1.loop {G : Type} [Zero G] [Add G] [Codec G] (a : List G)
    (k_ext : List Nat) (gsize : Nat) (Q0 : List G) : Nat → Option (List G)
  | 0 => some Q0
  | n + 1 =>
    (ScalarMultNoDoubleG1.loop a k_ext gsize Q0 n).bind fun Q =>
      (slice a (n * gsize) ((n + 1) * gsize)).bind fun ai =>
        (NewTableG1 ai gsize false).bind fun table =>
          (slice k_ext (n * gsize) ((n + 1) * gsize)).bind fun ks =>
            addBits table ks (getMsb ks) Q

/-- Source `ScalarMultNoDoubleG1`; the integer division by `gsize = 0` panics. -/
def ScalarMultNoDoubleG1 {G : Type} [Zero G] [Add G] [Codec G] (nbitsQ : Nat) (a : List G)
    (k : List Nat) (Q_prev : Option G) (gsize : Nat) : Option G :=
  if gsize = 0 then none
  else
    let ntables : Int := ((a.length + gsize - 1) / gsize : Nat)
    let min_nelems : Int := ntables * gsize
    let k_ext := k ++ List.replicate (min_nelems - k.length).toNat 0
    (ScalarMultNoDoubleG1.loop a k_ext gsize (List.replicate nbitsQ 0) (ntables - 1).toNat).bind
      fun Q =>
        (sliceFrom a ((ntables - 1) * gsize)).bind fun al =>
          (NewTableG1 al gsize false).bind fun table =>
            (sliceFrom k_ext ((ntables - 1) * gsize)).bind fun kl =>
              (addBits table kl (getMsb kl) Q).bind fun Q1 =>
                consolidate Q1 nbitsQ Q_prev

/-! ## Counting doublings

The no-doubling routines once more, with a counter `d` of the executed
statements `R = new(bn256.G1).Add(R, R)`.  The counter is threaded through every
loop; `NewTableG1` contains no such statement and is called as it is. -/

/-- Loop `addBits` with the doubling counter: its only point operation is
`Q[i].Add(Q[i], table.data[b])`. -/
def addBitsD {G : Type} [Add G] (t : TableG1 G) (ks : List Nat) :
    Nat → List G × Nat → Option (List G × Nat)
  | 0, s => some s
  | n + 1, (Q, d) =>
    if getBit ks n ≠ 0 then
      (Q[n]?).bind fun q =>
        (t.data[getBit ks n]?).bind fun e => addBitsD t ks n (Q.set n (q + e), d)
    else addBitsD t ks n (Q, d)

/-- Consolidation loop with the doubling counter: every iteration executes
`R = Add(R, R)` once and then `R.Add(R, Q[i-1])`. -/
def consolidateD.loop {G : Type} [Add G] (Q : List G) : Nat → G × Nat → Option (G × Nat)
  | 0, s => some s
  | n + 1, (R, d) => (Q[n]?).bind fun q => consolidateD.loop Q n (R + R + q, d + 1)

/-- Consolidation and final addition of `Q_prev` with the doubling counter. -/
def consolidateD {G : Type} [Add G] (Q : List G) (nbitsQ : Nat) (Q_prev : Option G) (d : Nat) :
    Option (G × Nat) :=
  if nbitsQ = 0 then none
  else (Q[nbitsQ - 1]?).bind fun R =>
    (consolidateD.loop Q (nbitsQ - 1) (R, d)).map fun s => (addPrev Q_prev s.1, s.2)

/-- Table loop of `MulTableNoDoubleG1` with the doubling counter. -/
def MulTableNoDoubleG1D.loop {G : Type} [Add G] (t : List (TableG1 G)) (k_ext : List Nat)
    (gsize : Nat) (s0 : List G × Nat) : Nat → Option (List G × Nat)
  | 0 => some s0
  | n + 1 =>
    (MulTableNoDoubleG1D.loop t k_ext gsize s0 n).bind fun s =>
      (slice k_ext (n * gsize) ((n + 1) * gsize)).bind fun ks =>
        (t[n]?).bind fun tj => addBitsD tj ks (getMsb ks) s

/-- Source `MulTableNoDoubleG1` with the doubling counter, which starts at `0`. -/
def MulTableNoDoubleG1D {G : Type} [Zero G] [Add G] (nbitsQ : Nat) (t : List (TableG1 G))
    (k : List Nat) (Q_prev : Option G) (gsize : Nat) : Option (G × Nat) :=
  let min_nelems := t.length * gsize
  let k_ext := k ++ List.replicate (min_nelems - k.length) 0
  (MulTableNoDoubleG1D.loop t k_ext gsize (List.replicate nbitsQ 0, 0) t.length).bind fun s =>
    consolidateD s.1 nbitsQ Q_prev s.2

/-- Chunk loop of `ScalarMultNoDoubleG1` with the doubling counter. -/
def ScalarMultNoDoubleG1D.loop {G : Type} [Zero G] [Add G] [Codec G] (a : List G)
    (k_ext : List Nat) (gsize : Nat) (s0 : List G × Nat) : Nat → Option (List G × Nat)
  | 0 => some s0
  | n + 1 =>
    (ScalarMultNoDoubleG1D.loop a k_ext gsize s0 n).bind fun s =>
      (slice a (n * gsize) ((n + 1) * gsize)).bind fun ai =>
        (NewTableG1 ai gsize false).bind fun table =>
          (slice k_ext (n * gsize) ((n + 1) * gsize)).bind fun ks =>
            addBitsD table ks (getMsb ks) s

/-- Source `ScalarMultNoDoubleG1` with the doubling counter, which starts at `0`. -/
def ScalarMultNoDoubleG1D {G : Type} [Zero G] [Add G] [Codec G] (nbitsQ : Nat) (a : List G)
    (k : List Nat) (Q_prev : Option G) (gsize : Nat) : Option (G × Nat) :=
  if gsize = 0 then none
  else
    let ntables : Int := ((a.length + gsize - 1) / gsize : Nat)
    let min_nelems : Int := ntables * gsize
    let k_ext := k ++ List.replicate (min_nelems - k.length).toNat 0
    (ScalarMultNoDoubleG1D.loop a k_ext gsize (List.replicate nbitsQ 0, 0)
        (ntables - 1).toNat).bind
      fun s =>
        (sliceFrom a ((ntables - 1) * gsize)).bind fun al =>
          (NewTableG1 al gsize false).bind fun table =>
            (sliceFrom k_ext ((ntables - 1) * gsize)).bind fun kl =>
              (addBitsD table kl (getMsb kl) s).bind fun s1 =>
                consolidateD s1.1 nbitsQ Q_prev s1.2

/-! ## Specification side -/

/-- The multi-scalar product: the sum over `i` of `k[i]` times `a[i]`. -/
def msm {G : Type} [AddMonoid G] (k : List Nat) (a : List G) : G :=
  (List.zipWith (fun x p => x • p) k a).sum

/-- The sum of the points of `a` selected by the set bits of `j`: point `b`
is taken when bit `b` of `j` is set. -/
def subsetSum {G : Type} [Zero G] [Add G] : List G → Nat → G
  | [], _ => 0
  | p :: ps, j => (if j % 2 = 1 then p else 0) + subsetSum ps (j / 2)

/-- The number whose binary digits, least significant first, are `bs`. -/
def packBits : List Nat → Nat
  | [] => 0
  | b :: bs => b + 2 * packBits bs

/-- Invariant of the loop of `NewTableG1` after the iterations `1, ..., n`. -/
def TableInv {G : Type} [Zero G] [Add G] (a_ext : List G) (n : Nat) (st : TableVars G) : Prop :=
  st.table.length = n + 1 ∧
  (∀ j, j ≤ n → st.table[j]? = some (subsetSum a_ext j)) ∧
  ((n = 0 ∧ st.last_pow2 = 1 ∧ st.nelems = 0) ∨
    ∃ t, 2 ^ t ≤ n ∧ n < 2 ^ (t + 1) ∧ st.last_pow2 = 2 ^ t ∧ st.nelems = t + 1)

/-- Chunk `j` of the scalars for window size `g`: `k[j*g:(j+1)*g]` cut at the
end of `k`. -/
def chunkOf (k : List Nat) (g j : Nat) : List Nat := (k.take ((j + 1) * g)).drop (j * g)

/-- The first 64 scalars of each of the chunks `0, ..., n-1` are zero. -/
def quietUpTo (k : List Nat) (g n : Nat) : Prop :=
  ∀ j, j < n → ∀ x ∈ (chunkOf k g j).take 64, x = 0

/-- Test points: the free abelian group on three generators. -/
abbrev Pt3 : Type := Int × Int × Int

instance : Codec Pt3 where
  Marshal := fun _ => []
  Unmarshal := fun p _ => p

/-- Test points with an encoding of one byte: the integers. -/
instance : Codec Int where
  Marshal := fun p => [p.toNat]
  Unmarshal := fun p _ => p

/-- First test point. -/
def P0 : Pt3 := (1, 0, 0)

/-- Second test point. -/
def P1 : Pt3 := (0, 1, 0)

/-- Third test point. -/
def P2 : Pt3 := (0, 0, 1)

/-! ## Machine arithmetic -/

theorem shl1_of_le {n : Nat} (h : n ≤ 62) : shl1 n = 2 ^ n := by
  have h1 : (2 : Int) ^ n ≤ 2 ^ 62 := pow_le_pow_right₀ (by norm_num) h
  have h2 : (0 : Int) < 2 ^ n := by positivity
  unfold shl1 wrapInt
  omega

theorem tableIters_of_le {n : Nat} (h : n ≤ 62) : (shl1 n - 1).toNat = 2 ^ n - 1 := by
  rw [shl1_of_le h]
  have h2 : 0 < 2 ^ n := by positivity
  have : ((2 : Int) ^ n - 1) = ((2 ^ n - 1 : Nat) : Int) := by
    rw [Nat.cast_sub h2]; simp
  rw [this, Int.toNat_ofNat]

theorem tableIters_of_ge {n : Nat} (h : 63 ≤ n) : (shl1 n - 1).toNat = 0 := by
  obtain ⟨m, rfl⟩ : ∃ m, n = 63 + m := ⟨n - 63, by omega⟩
  unfold shl1 wrapInt
  rcases m with _ | m
  · decide
  · have : (2 : Int) ^ (63 + (m + 1)) = 2 ^ 64 * 2 ^ m := by
      rw [show 63 + (m + 1) = 64 + m by omega, pow_add]
    rw [this]
    have h3 : ((2 : Int) ^ 64 * 2 ^ m + 2 ^ 63) % 2 ^ 64 = 2 ^ 63 := by
      rw [add_comm, Int.add_mul_emod_self_left]; decide
    rw [h3]; decide

/-! ## Bit lengths -/

theorem BitLen_go_lt (fuel : Nat) : ∀ x, x ≤ fuel → x < 2 ^ BitLen.go fuel x := by
  induction fuel with
  | zero => intro x hx; simp [BitLen.go]; omega
  | succ f ih =>
    intro x hx
    unfold BitLen.go
    split
    · simp_all
    · have := ih (x / 2) (by omega)
      rw [pow_succ]; omega

theorem lt_two_pow_BitLen (x : Nat) : x < 2 ^ BitLen x := BitLen_go_lt x x le_rfl

theorem lt_two_pow_of_BitLen_le {x n : Nat} (h : BitLen x ≤ n) : x < 2 ^ n :=
  lt_of_lt_of_le (lt_two_pow_BitLen x) (Nat.pow_le_pow_right (by norm_num) h)

theorem BitLen_zero : BitLen 0 = 0 := rfl

theorem getMsb_foldl_ge (k : List Nat) : ∀ m,
    m ≤ k.foldl (fun msb el => if BitLen el > msb then BitLen el else msb) m ∧
    ∀ x ∈ k, BitLen x ≤ k.foldl (fun msb el => if BitLen el > msb then BitLen el else msb) m := by
  induction k with
  | nil => intro m; simp
  | cons y ys ih =>
    intro m
    simp only [List.foldl_cons, List.mem_cons]
    obtain ⟨h1, h2⟩ := ih (if BitLen y > m then BitLen y else m)
    refine ⟨le_trans ?_ h1, ?_⟩
    · split <;> omega
    · rintro x (rfl | hx)
      · refine le_trans ?_ h1; split <;> omega
      · exact h2 x hx

theorem getMsb_foldl_le (k : List Nat) (n : Nat) (hk : ∀ x ∈ k, BitLen x ≤ n) : ∀ m, m ≤ n →
    k.foldl (fun msb el => if BitLen el > msb then BitLen el else msb) m ≤ n := by
  induction k with
  | nil => intro m hm; simpa using hm
  | cons y ys ih =>
    intro m hm
    simp only [List.foldl_cons]
    apply ih (fun x hx => hk x (List.mem_cons_of_mem _ hx))
    have := hk y (List.mem_cons_self _ _)
    split <;> omega

theorem BitLen_le_getMsb {k : List Nat} {x : Nat} (hx : x ∈ k) : BitLen x ≤ getMsb k :=
  (getMsb_foldl_ge k 0).2 x hx

theorem lt_two_pow_getMsb {k : List Nat} {x : Nat} (hx : x ∈ k) : x < 2 ^ getMsb k :=
  lt_two_pow_of_BitLen_le (BitLen_le_getMsb hx)

theorem getMsb_le {k : List Nat} {n : Nat} (hk : ∀ x ∈ k, BitLen x ≤ n) : getMsb k ≤ n :=
  getMsb_foldl_le k n hk 0 (Nat.zero_le _)

/-! ## Window indices -/

theorem Bit_le_one (x i : Nat) : Bit x i ≤ 1 := by
  unfold Bit; omega

theorem packBits_lt (bs : List Nat) (h : ∀ b ∈ bs, b ≤ 1) : packBits bs < 2 ^ bs.length := by
  induction bs with
  | nil => simp [packBits]
  | cons b bs ih =>
    have h1 := h b (List.mem_cons_self _ _)
    have h2 := ih (fun c hc => h c (List.mem_cons_of_mem _ hc))
    simp only [packBits, List.length_cons, pow_succ]
    omega

theorem getBit_loop_eq (i : Nat) (ks : List Nat) : ∀ idx acc, idx + ks.length ≤ 64 →
    acc < 2 ^ idx →
    getBit.loop i ks idx acc = acc + 2 ^ idx * packBits (ks.map fun x => Bit x i) := by
  induction ks with
  | nil => intro idx acc _ _; simp [getBit.loop, packBits]
  | cons x xs ih =>
    intro idx acc hlen hacc
    have hb := Bit_le_one x i
    have hidx : idx < 64 := by simp at hlen; omega
    have hp : 2 ^ (idx + 1) ≤ 2 ^ 64 := Nat.pow_le_pow_right (by norm_num) (by omega)
    have hsh : Bit x i <<< idx = Bit x i * 2 ^ idx := Nat.shiftLeft_eq _ _
    have hlt : acc + Bit x i * 2 ^ idx < 2 ^ (idx + 1) := by
      rw [pow_succ]
      have : Bit x i * 2 ^ idx ≤ 1 * 2 ^ idx := Nat.mul_le_mul_right _ hb
      omega
    have hw1 : wrapUint (Bit x i <<< idx) = Bit x i * 2 ^ idx := by
      unfold wrapUint; rw [hsh]; apply Nat.mod_eq_of_lt; omega
    have hw2 : wrapUint (acc + Bit x i * 2 ^ idx) = acc + Bit x i * 2 ^ idx := by
      unfold wrapUint; apply Nat.mod_eq_of_lt; omega
    simp only [getBit.loop, List.map_cons, packBits]
    rw [hw1, hw2, ih (idx + 1) _ (by simp at hlen ⊢; omega) hlt, pow_succ]
    ring

theorem getBit_eq_packBits {ks : List Nat} (h : ks.length ≤ 64) (i : Nat) :
    getBit ks i = packBits (ks.map fun x => Bit x i) := by
  unfold getBit
  rw [getBit_loop_eq i ks 0 0 (by omega) (by norm_num)]
  simp

theorem getBit_lt {ks : List Nat} (h : ks.length ≤ 64) (i : Nat) :
    getBit ks i < 2 ^ ks.length := by
  rw [getBit_eq_packBits h]
  have := packBits_lt (ks.map fun x => Bit x i) (by
    intro b hb
    obtain ⟨x, _, rfl⟩ := List.mem_map.1 hb
    exact Bit_le_one x i)
  simpa using this

/-! ## Powers of two -/

theorem two_pow_and_pred (s : Nat) : 2 ^ s &&& (2 ^ s - 1) = 0 := by
  apply Nat.eq_of_testBit_eq
  intro j
  rw [Nat.testBit_and, Nat.testBit_two_pow, Nat.testBit_two_pow_sub_one]
  by_cases h : s = j <;> simp [h]

theorem testBit_of_mem_Ico {x t : Nat} (h1 : 2 ^ t ≤ x) (h2 : x < 2 ^ (t + 1)) :
    x.testBit t = true := by
  rw [Nat.testBit_to_div_mod]
  have : x / 2 ^ t = 1 := by
    apply Nat.div_eq_of_lt_le
    · simpa using h1
    · rw [pow_succ] at h2; omega
  simp [this]

theorem and_pred_ne_zero {i t : Nat} (h1 : 2 ^ t < i) (h2 : i < 2 ^ (t + 1)) :
    i &&& (i - 1) ≠ 0 := by
  intro h
  have hb : (i &&& (i - 1)).testBit t = true := by
    rw [Nat.testBit_and, testBit_of_mem_Ico (le_of_lt h1) h2,
      testBit_of_mem_Ico (by omega) (by omega)]
    rfl
  rw [h] at hb
  simp at hb

/-! ## Subset sums -/

section Sums

variable {G : Type} [AddCommMonoid G]

theorem subsetSum_zero (a : List G) : subsetSum a 0 = 0 := by
  induction a with
  | nil => rfl
  | cons p ps ih => simp [subsetSum, ih]

theorem subsetSum_two_pow_add (a : List G) : ∀ (t r : Nat), r < 2 ^ t →
    subsetSum a (2 ^ t + r) = a.getD t 0 + subsetSum a r := by
  induction a with
  | nil => intro t r _; simp [subsetSum]
  | cons p ps ih =>
    intro t r hr
    cases t with
    | zero =>
      have : r = 0 := by simpa using hr
      subst this
      simp [subsetSum, subsetSum_zero]
    | succ t =>
      have h1 : (2 ^ (t + 1) + r) % 2 = r % 2 := by rw [pow_succ]; omega
      have h2 : (2 ^ (t + 1) + r) / 2 = 2 ^ t + r / 2 := by rw [pow_succ]; omega
      have h3 : r / 2 < 2 ^ t := by rw [pow_succ] at hr; omega
      simp only [subsetSum, h1, h2, ih t (r / 2) h3, List.getD_cons_succ]
      exact add_left_comm _ _ _

theorem subsetSum_two_pow (a : List G) (t : Nat) : subsetSum a (2 ^ t) = a.getD t 0 := by
  have := subsetSum_two_pow_add a t 0 (by positivity)
  simpa [subsetSum_zero] using this

theorem subsetSum_replicate_zero (n j : Nat) :
    subsetSum (List.replicate n (0 : G)) j = 0 := by
  induction n generalizing j with
  | zero => rfl
  | succ n ih => simp [List.replicate_succ, subsetSum, ih]

theorem subsetSum_append_zeros (a : List G) (n : Nat) : ∀ j,
    subsetSum (a ++ List.replicate n 0) j = subsetSum a j := by
  induction a with
  | nil => intro j; simp [subsetSum, subsetSum_replicate_zero]
  | cons p ps ih => intro j; simp [subsetSum, ih]

theorem subsetSum_packBits (bs : List Nat) : ∀ (a : List G), (∀ b ∈ bs, b ≤ 1) →
    subsetSum a (packBits bs) = msm bs a := by
  induction bs with
  | nil => intro a _; simp [packBits, subsetSum_zero, msm]
  | cons b bs ih =>
    intro a h
    cases a with
    | nil => simp [subsetSum, msm]
    | cons p ps =>
      have h1 := h b (List.mem_cons_self _ _)
      have h2 := ih ps (fun c hc => h c (List.mem_cons_of_mem _ hc))
      have e1 : (b + 2 * packBits bs) % 2 = b := by omega
      have e2 : (b + 2 * packBits bs) / 2 = packBits bs := by omega
      simp only [subsetSum, packBits, e1, e2, h2, msm, List.zipWith_cons_cons, List.sum_cons]
      congr 1
      interval_cases b <;> simp

end Sums

/-! ## The table loop -/

theorem getElem?_snoc_of_inv {α : Type} {l : List α} {n : Nat} {f : Nat → α} (e : α)
    (hlen : l.length = n + 1) (hl : ∀ j, j ≤ n → l[j]? = some (f j)) (he : e = f (n + 1)) :
    ∀ j, j ≤ n + 1 → (l ++ [e])[j]? = some (f j) := by
  intro j hj
  rcases Nat.lt_or_ge j (n + 1) with h | h
  · rw [List.getElem?_append_left (by omega)]
    exact hl j (by omega)
  · have : j = l.length := by omega
    subst this
    rw [List.getElem?_append_right (le_refl _)]
    simp [he, hlen]

section Table

variable {G : Type} [AddCommMonoid G]

theorem NewTableG1_body_pow (a_ext : List G) (st : TableVars G) (n s : Nat)
    (hinv : st.table.length = n + 1 ∧ ∀ j, j ≤ n → st.table[j]? = some (subsetSum a_ext j))
    (hi : n + 1 = 2 ^ s) (hs : s < a_ext.length) (hne : st.nelems = s) :
    ∃ st1, NewTableG1.body a_ext st (n + 1) = some st1 ∧ TableInv a_ext (n + 1) st1 := by
  have hand : (n + 1) &&& n = 0 := by
    have := two_pow_and_pred s
    rw [← hi] at this
    simpa using this
  have hpos : 0 < 2 ^ s := by positivity
  have hget : a_ext[st.nelems]? = some (a_ext.getD s 0) := by
    rw [hne, List.getD_eq_getElem?_getD, List.getElem?_eq_getElem hs]; rfl
  refine ⟨⟨st.table ++ [a_ext.getD s 0], n + 1, st.nelems + 1⟩, ?_, ?_, ?_, ?_⟩
  · simp [NewTableG1.body, hand, hget]
  · simp [hinv.1]
  · exact getElem?_snoc_of_inv _ hinv.1 hinv.2 (by rw [hi, subsetSum_two_pow])
  · right
    exact ⟨s, by omega, by rw [hi, pow_succ]; omega, hi, by simp [hne]⟩

theorem NewTableG1_body_sum (a_ext : List G) (st : TableVars G) (n t : Nat)
    (hinv : st.table.length = n + 1 ∧ ∀ j, j ≤ n → st.table[j]? = some (subsetSum a_ext j))
    (h1 : 2 ^ t ≤ n) (h2 : n + 1 < 2 ^ (t + 1)) (hlp : st.last_pow2 = 2 ^ t)
    (hne : st.nelems = t + 1) :
    ∃ st1, NewTableG1.body a_ext st (n + 1) = some st1 ∧ TableInv a_ext (n + 1) st1 := by
  have hand : (n + 1) &&& n ≠ 0 := by
    have := and_pred_ne_zero (i := n + 1) (t := t) (by omega) h2
    simpa using this
  have hpos : 0 < 2 ^ t := by positivity
  have hx := hinv.2 (2 ^ t) h1
  have hy := hinv.2 (n + 1 - 2 ^ t) (by omega)
  have hsum : subsetSum a_ext (2 ^ t) + subsetSum a_ext (n + 1 - 2 ^ t)
      = subsetSum a_ext (n + 1) := by
    have hr : n + 1 - 2 ^ t < 2 ^ t := by rw [pow_succ] at h2; omega
    have := subsetSum_two_pow_add a_ext t (n + 1 - 2 ^ t) hr
    rw [show 2 ^ t + (n + 1 - 2 ^ t) = n + 1 by omega] at this
    rw [this, subsetSum_two_pow]
  refine ⟨⟨st.table ++ [subsetSum a_ext (2 ^ t) + subsetSum a_ext (n + 1 - 2 ^ t)],
    st.last_pow2, st.nelems⟩, ?_, ?_, ?_, ?_⟩
  · have hle : 2 ^ t ≤ n + 1 := by omega
    simp [NewTableG1.body, hand, hlp, hx, hy, hle]
  · simp [hinv.1]
  · exact getElem?_snoc_of_inv _ hinv.1 hinv.2 hsum
  · right
    exact ⟨t, by omega, h2, hlp, hne⟩

theorem NewTableG1_loop_inv (a_ext : List G) (gsize : Nat) (hlen : gsize ≤ a_ext.length) :
    ∀ n, n < 2 ^ gsize → ∃ st, NewTableG1.loop a_ext n = some st ∧ TableInv a_ext n st := by
  intro n
  induction n with
  | zero =>
    intro _
    refine ⟨⟨[0], 1, 0⟩, rfl, rfl, ?_, Or.inl ⟨rfl, rfl, rfl⟩⟩
    intro j hj
    have : j = 0 := by omega
    subst this
    simp [subsetSum_zero]
  | succ n ih =>
    intro hn
    obtain ⟨st, hst, hlen1, hget, hvars⟩ := ih (by omega)
    have hexp : ∀ s, n + 1 = 2 ^ s → s < a_ext.length := by
      intro s hs
      have : 2 ^ s < 2 ^ gsize := by omega
      have := (Nat.pow_lt_pow_iff_right (by norm_num : 1 < 2)).1 this
      omega
    have key : ∃ st1, NewTableG1.body a_ext st (n + 1) = some st1 ∧
        TableInv a_ext (n + 1) st1 := by
      rcases hvars with ⟨h0, _, hne⟩ | ⟨t, h1, h2, hlp, hne⟩
      · subst h0
        exact NewTableG1_body_pow a_ext st 0 0 ⟨hlen1, hget⟩ (by norm_num)
          (hexp 0 (by norm_num)) hne
      · rcases Nat.lt_or_ge (n + 1) (2 ^ (t + 1)) with h | h
        · exact NewTableG1_body_sum a_ext st n t ⟨hlen1, hget⟩ h1 h hlp hne
        · have heq : n + 1 = 2 ^ (t + 1) := by omega
          exact NewTableG1_body_pow a_ext st n (t + 1) ⟨hlen1, hget⟩ heq (hexp _ heq) hne
    obtain ⟨st1, hb, hinv1⟩ := key
    exact ⟨st1, by simp [NewTableG1.loop, hst, hb], hinv1⟩

theorem NewTableG1_spec [Codec G] (a : List G) {gsize : Nat} (hg : gsize ≤ 62) :
    ∃ t, NewTableG1 a gsize false = some t ∧ t.data.length = 2 ^ gsize ∧
      ∀ j, j < 2 ^ gsize → t.data[j]? = some (subsetSum a j) := by
  have hpos : 0 < 2 ^ gsize := by positivity
  obtain ⟨st, hst, hlen, hget, _⟩ :=
    NewTableG1_loop_inv (a ++ List.replicate (gsize - a.length) 0) gsize
      (by simp; omega) (2 ^ gsize - 1) (by omega)
  refine ⟨⟨st.table⟩, ?_, ?_, ?_⟩
  · simp [NewTableG1, tableIters_of_le hg, hst]
  · show st.table.length = 2 ^ gsize
    rw [hlen]; exact Nat.sub_add_cancel hpos
  · intro j hj
    show st.table[j]? = some (subsetSum a j)
    rw [hget j (by omega), subsetSum_append_zeros]

end Table

/-! ## Multi-scalar products -/

section Msm

variable {G : Type} [AddCommMonoid G]

@[simp] theorem msm_nil_left (a : List G) : msm [] a = 0 := by simp [msm]

@[simp] theorem msm_nil_right (k : List Nat) : msm k ([] : List G) = 0 := by simp [msm]

@[simp] theorem msm_cons (x : Nat) (k : List Nat) (p : G) (a : List G) :
    msm (x :: k) (p :: a) = x • p + msm k a := by simp [msm]

theorem msm_eq_zero_of_scalars (k : List Nat) : ∀ (a : List G), (∀ x ∈ k, x = 0) →
    msm k a = 0 := by
  induction k with
  | nil => intro a _; simp
  | cons x xs ih =>
    intro a h
    cases a with
    | nil => simp
    | cons p ps =>
      simp [h x (List.mem_cons_self _ _), ih ps (fun y hy => h y (List.mem_cons_of_mem _ hy))]

theorem msm_append_zeros (k : List Nat) (n : Nat) : ∀ (a : List G),
    msm (k ++ List.replicate n 0) a = msm k a := by
  induction k with
  | nil =>
    intro a
    simpa using msm_eq_zero_of_scalars (List.replicate n 0) a
      (fun x hx => (List.mem_replicate.1 hx).2)
  | cons x xs ih =>
    intro a
    cases a with
    | nil => simp
    | cons p ps => simp [ih ps]

theorem msm_take_drop (m : Nat) : ∀ (k : List Nat) (a : List G),
    msm k a = msm (k.take m) (a.take m) + msm (k.drop m) (a.drop m) := by
  induction m with
  | zero => intro k a; simp
  | succ m ih =>
    intro k a
    cases k with
    | nil => simp
    | cons x xs =>
      cases a with
      | nil => simp
      | cons p ps => simp [ih xs ps, add_assoc]

theorem msm_map_mod_succ (n : Nat) (k : List Nat) : ∀ (a : List G),
    msm (k.map fun x => x % 2 ^ (n + 1)) a =
      msm (k.map fun x => x % 2 ^ n) a + 2 ^ n • msm (k.map fun x => Bit x n) a := by
  induction k with
  | nil => intro a; simp
  | cons x xs ih =>
    intro a
    cases a with
    | nil => simp
    | cons p ps =>
      simp only [List.map_cons, msm_cons]
      rw [ih ps, Nat.mod_pow_succ, add_nsmul, smul_add, smul_smul]
      simp only [Bit]
      abel

@[simp] theorem msm_map_mod_one (k : List Nat) (a : List G) :
    msm (k.map fun x => x % 1) a = 0 :=
  msm_eq_zero_of_scalars _ a (by
    intro x hx
    obtain ⟨y, _, rfl⟩ := List.mem_map.1 hx
    simp [Nat.mod_one])

theorem map_mod_of_lt {k : List Nat} {n : Nat} (h : ∀ x ∈ k, x < 2 ^ n) :
    (k.map fun x => x % 2 ^ n) = k := by
  induction k with
  | nil => rfl
  | cons x xs ih =>
    simp only [List.map_cons]
    rw [Nat.mod_eq_of_lt (h x (List.mem_cons_self _ _)),
      ih (fun y hy => h y (List.mem_cons_of_mem _ hy))]

theorem msm_map_Bit_of_lt {k : List Nat} {n i : Nat} (h : ∀ x ∈ k, x < 2 ^ n) (hi : n ≤ i)
    (a : List G) : msm (k.map fun x => Bit x i) a = 0 :=
  msm_eq_zero_of_scalars _ a (by
    intro b hb
    obtain ⟨x, hx, rfl⟩ := List.mem_map.1 hb
    have h1 : x < 2 ^ i := lt_of_lt_of_le (h x hx) (Nat.pow_le_pow_right (by norm_num) hi)
    simp [Bit, Nat.div_eq_of_lt h1])

theorem sum_two_pow_msm_Bit (k : List Nat) (a : List G) (n : Nat) :
    (∑ i in Finset.range n, 2 ^ i • msm (k.map fun x => Bit x i) a) =
      msm (k.map fun x => x % 2 ^ n) a := by
  induction n with
  | zero => simp
  | succ n ih => rw [Finset.sum_range_succ, ih, msm_map_mod_succ]

theorem msm_map_chunk (f : Nat → Nat) (k : List Nat) (a : List G) {N M : Nat} (h : N ≤ M) :
    msm ((k.take M).map f) (a.take M) =
      msm ((k.take N).map f) (a.take N) +
        msm (((k.take M).drop N).map f) ((a.take M).drop N) := by
  rw [msm_take_drop N ((k.take M).map f) (a.take M)]
  simp only [← List.map_take, ← List.map_drop, List.take_take, min_eq_left h]

theorem msm_map_take_drop (f : Nat → Nat) (k : List Nat) (a : List G) (N : Nat) :
    msm (k.map f) a =
      msm ((k.take N).map f) (a.take N) + msm ((k.drop N).map f) (a.drop N) := by
  rw [msm_take_drop N (k.map f) a]
  simp only [← List.map_take, ← List.map_drop]

theorem msm_add (k : List Nat) : ∀ (k1 : List Nat) (a : List G), k.length = k1.length →
    msm (List.zipWith (fun x y => x + y) k k1) a = msm k a + msm k1 a := by
  induction k with
  | nil =>
    intro k1 a h
    have : k1 = [] := List.length_eq_zero.1 h.symm
    subst this
    simp
  | cons x xs ih =>
    intro k1 a h
    cases k1 with
    | nil => simp at h
    | cons y ys =>
      cases a with
      | nil => simp
      | cons p ps =>
        simp only [List.zipWith_cons_cons, msm_cons, ih ys ps (by simpa using h), add_nsmul]
        abel

theorem subsetSum_sum_two_pow (a : List G) (S : Finset Nat) :
    subsetSum a (∑ b in S, 2 ^ b) = ∑ b in S, a.getD b 0 := by
  induction S using Finset.induction_on_max with
  | h0 => simp [subsetSum_zero]
  | step m S hS ih =>
    have hm : m ∉ S := fun h => lt_irrefl _ (hS m h)
    rw [Finset.sum_insert hm, Finset.sum_insert hm,
      subsetSum_two_pow_add a m _ (Nat.geomSum_lt (le_refl 2) hS), ih]

/-- Table entry selected by the window at bit position `i`. -/
theorem table_window {t : TableG1 G} {A : List G} {ks : List Nat} (hks : ks.length ≤ 64)
    (ht : ∀ j, j < 2 ^ ks.length → t.data[j]? = some (subsetSum A j)) (i : Nat) :
    t.data[getBit ks i]? = some (msm (ks.map fun x => Bit x i) A) := by
  rw [ht _ (getBit_lt hks i), getBit_eq_packBits hks, subsetSum_packBits]
  intro b hb
  obtain ⟨x, _, rfl⟩ := List.mem_map.1 hb
  exact Bit_le_one x i

theorem window_zero {A : List G} {ks : List Nat} (hks : ks.length ≤ 64) {i : Nat}
    (h : getBit ks i = 0) : msm (ks.map fun x => Bit x i) A = 0 := by
  rw [← subsetSum_packBits _ A (by
    intro b hb
    obtain ⟨x, _, rfl⟩ := List.mem_map.1 hb
    exact Bit_le_one x i), ← getBit_eq_packBits hks, h, subsetSum_zero]

theorem MulTableG1_loop_eq {t : TableG1 G} {A : List G} {ks : List Nat} (hks : ks.length ≤ 64)
    (ht : ∀ j, j < 2 ^ ks.length → t.data[j]? = some (subsetSum A j)) : ∀ (n : Nat) (Q : G),
    MulTableG1.loop t ks n Q = some (2 ^ n • Q + msm (ks.map fun x => x % 2 ^ n) A) := by
  intro n
  induction n with
  | zero => intro Q; simp [MulTableG1.loop]
  | succ n ih =>
    intro Q
    have halg : ∀ T : G, 2 ^ n • (Q + Q + T) + msm (ks.map fun x => x % 2 ^ n) A =
        2 ^ (n + 1) • Q + (msm (ks.map fun x => x % 2 ^ n) A + 2 ^ n • T) := by
      intro T
      rw [pow_succ, mul_two, add_nsmul, smul_add, smul_add]
      abel
    unfold MulTableG1.loop
    split
    · rw [table_window hks ht n]
      simp only [Option.some_bind, ih, msm_map_mod_succ, halg]
    · rename_i hb
      have hb0 : getBit ks n = 0 := by simpa using hb
      have := halg 0
      simp only [add_zero, smul_zero] at this
      rw [ih, msm_map_mod_succ, window_zero hks hb0, this]
      simp

theorem MulTableG1_eq {t : TableG1 G} {A : List G} {gsize : Nat} (hg : gsize ≤ 64)
    (ht : ∀ j, j < 2 ^ gsize → t.data[j]? = some (subsetSum A j)) (k : List Nat)
    (hk : k.length ≤ gsize) (Q_prev : Option G) :
    MulTableG1 t k Q_prev gsize = some (addPrev Q_prev (msm k A)) := by
  have hlen : (k ++ List.replicate (gsize - k.length) 0).length = gsize := by simp; omega
  unfold MulTableG1
  simp only []
  rw [MulTableG1_loop_eq (A := A) (by omega) (by rw [hlen]; exact ht)]
  rw [map_mod_of_lt (fun x hx => lt_two_pow_getMsb hx), msm_append_zeros]
  simp

end Msm

/-! ## Slices and chunk counts -/

theorem slice_natCast {α : Type} (l : List α) {lo hi : Nat} (h1 : lo ≤ hi)
    (h2 : hi ≤ l.length) : slice l (lo : Int) (hi : Int) = some ((l.take hi).drop lo) := by
  have : (0 : Int) ≤ lo ∧ (lo : Int) ≤ hi ∧ (hi : Int) ≤ l.length := by omega
  simp [slice, this]

theorem slice_natCast_none {α : Type} (l : List α) {lo hi : Nat} (h : l.length < hi) :
    slice l (lo : Int) (hi : Int) = none := by
  have : ¬((0 : Int) ≤ lo ∧ (lo : Int) ≤ hi ∧ (hi : Int) ≤ l.length) := by omega
  unfold slice
  rw [if_neg this]

theorem sliceFrom_natCast {α : Type} (l : List α) {lo : Nat} (h : lo ≤ l.length) :
    sliceFrom l (lo : Int) = some (l.drop lo) := by
  have : (0 : Int) ≤ lo ∧ (lo : Int) ≤ l.length := by omega
  simp [sliceFrom, this]

theorem chunk_cast (n g : Nat) :
    ((n : Int) * g = ((n * g : Nat) : Int)) ∧ (((n : Int) + 1) * g = (((n + 1) * g : Nat) : Int)) := by
  constructor <;> push_cast <;> ring

/-- The number of chunks `ntables` of a non-empty list: all chunks but the last
are full and the last one is not empty. -/
theorem ntables_bounds {L g : Nat} (hg : 1 ≤ g) (hL : 1 ≤ L) :
    ∃ q, (L + g - 1) / g = q + 1 ∧ q * g < L ∧ L ≤ q * g + g := by
  have h1 : (L + g - 1) / g * g ≤ L + g - 1 := Nat.div_mul_le_self _ _
  have h2 : L + g - 1 < g * ((L + g - 1) / g + 1) := Nat.lt_mul_div_succ _ (by omega)
  rcases hq : (L + g - 1) / g with _ | q
  · rw [hq] at h2; omega
  · refine ⟨q, rfl, ?_, ?_⟩
    · rw [hq, Nat.succ_mul] at h1; omega
    · rw [hq, Nat.mul_succ, Nat.mul_succ, Nat.mul_comm g q] at h2; omega

/-! ## Adders of the no-doubling strategy -/

section Adders

variable {G : Type} [AddCommMonoid G]

theorem getD_set_eq (Q : List G) (n : Nat) (v : G) (hn : n < Q.length) (i : Nat) :
    (Q.set n v).getD i 0 = if i = n then v else Q.getD i 0 := by
  simp only [List.getD_eq_getElem?_getD, List.getElem?_set]
  by_cases h : n = i
  · subst h; simp [hn]
  · have h2 : ¬ i = n := fun e => h e.symm
    simp [h, h2]

theorem addBits_spec {t : TableG1 G} {A : List G} {ks : List Nat} (hks : ks.length ≤ 64)
    (ht : ∀ j, j < 2 ^ ks.length → t.data[j]? = some (subsetSum A j)) :
    ∀ (n : Nat) (Q : List G), n ≤ Q.length →
      ∃ Q1, addBits t ks n Q = some Q1 ∧ Q1.length = Q.length ∧
        ∀ i, Q1.getD i 0 =
          Q.getD i 0 + if i < n then msm (ks.map fun x => Bit x i) A else 0 := by
  intro n
  induction n with
  | zero => intro Q _; exact ⟨Q, rfl, rfl, by simp⟩
  | succ n ih =>
    intro Q hn
    unfold addBits
    split
    · have hq : Q[n]? = some (Q.getD n 0) := by
        rw [List.getD_eq_getElem?_getD, List.getElem?_eq_getElem (by omega)]; rfl
      obtain ⟨Q1, h1, h2, h3⟩ :=
        ih (Q.set n (Q.getD n 0 + msm (ks.map fun x => Bit x n) A)) (by simp; omega)
      refine ⟨Q1, ?_, by simpa using h2, ?_⟩
      · rw [hq, table_window hks ht n]
        simpa using h1
      · intro i
        rw [h3 i, getD_set_eq Q n _ (by omega)]
        rcases Nat.lt_trichotomy i n with h | h | h
        · simp [h, Nat.ne_of_lt h, Nat.lt_succ_of_lt h]
        · subst h; simp
        · have h4 : ¬ i < n := by omega
          have h5 : ¬ i < n + 1 := by omega
          simp [h4, h5, Nat.ne_of_gt h]
    · rename_i hb
      have hb0 : getBit ks n = 0 := by simpa using hb
      obtain ⟨Q1, h1, h2, h3⟩ := ih Q (by omega)
      refine ⟨Q1, h1, h2, ?_⟩
      intro i
      rw [h3 i]
      rcases Nat.lt_trichotomy i n with h | h | h
      · simp [h, Nat.lt_succ_of_lt h]
      · subst h; simp [window_zero hks hb0]
      · have h4 : ¬ i < n := by omega
        have h5 : ¬ i < n + 1 := by omega
        simp [h4, h5]

/-- One table folded into the adders: every adder `i` gains the table entry
selected by the window at bit position `i`. -/
theorem addBits_getMsb {t : TableG1 G} {A : List G} {ks : List Nat} (hks : ks.length ≤ 64)
    (ht : ∀ j, j < 2 ^ ks.length → t.data[j]? = some (subsetSum A j)) (Q : List G)
    (hn : getMsb ks ≤ Q.length) :
    ∃ Q1, addBits t ks (getMsb ks) Q = some Q1 ∧ Q1.length = Q.length ∧
      ∀ i, Q1.getD i 0 = Q.getD i 0 + msm (ks.map fun x => Bit x i) A := by
  obtain ⟨Q1, h1, h2, h3⟩ := addBits_spec hks ht (getMsb ks) Q hn
  refine ⟨Q1, h1, h2, ?_⟩
  intro i
  rw [h3 i]
  split
  · rfl
  · rw [msm_map_Bit_of_lt (fun x hx => lt_two_pow_getMsb hx) (by omega)]

theorem addPrev_none_map (x : Option G) : x.map (addPrev none) = x := by
  cases x <;> rfl

theorem consolidate_prev (Q : List G) (nbitsQ : Nat) (Q_prev : Option G) :
    consolidate Q nbitsQ Q_prev = (consolidate Q nbitsQ none).map (addPrev Q_prev) := by
  unfold consolidate
  split
  · rfl
  · simp only [Option.map_bind, Function.comp_def, Option.map_map, addPrev_none_map]

theorem consolidate_loop_eq (Q : List G) : ∀ (n : Nat) (R : G), n ≤ Q.length →
    consolidate.loop Q n R =
      some (2 ^ n • R + ∑ i in Finset.range n, 2 ^ i • Q.getD i 0) := by
  intro n
  induction n with
  | zero => intro R _; simp [consolidate.loop]
  | succ n ih =>
    intro R hn
    have hq : Q[n]? = some (Q.getD n 0) := by
      rw [List.getD_eq_getElem?_getD, List.getElem?_eq_getElem (by omega)]; rfl
    unfold consolidate.loop
    rw [hq, Option.some_bind, ih _ (by omega), Finset.sum_range_succ, pow_succ, mul_two,
      add_nsmul, smul_add, smul_add]
    congr 1
    abel

theorem consolidate_eq (Q : List G) {nbitsQ : Nat} (hn : 0 < nbitsQ) (hQ : Q.length = nbitsQ)
    (Q_prev : Option G) :
    consolidate Q nbitsQ Q_prev =
      some (addPrev Q_prev (∑ i in Finset.range nbitsQ, 2 ^ i • Q.getD i 0)) := by
  obtain ⟨m, rfl⟩ : ∃ m, nbitsQ = m + 1 := ⟨nbitsQ - 1, by omega⟩
  have hq : Q[m]? = some (Q.getD m 0) := by
    rw [List.getD_eq_getElem?_getD, List.getElem?_eq_getElem (by omega)]; rfl
  unfold consolidate
  rw [if_neg (by omega), Nat.add_sub_cancel, hq, Option.some_bind,
    consolidate_loop_eq Q m _ (by omega), Finset.sum_range_succ]
  simp [add_comm]

/-- Consolidation of adders that hold, at every position `i`, the product of the
bits at position `i` with the points gives the multi-scalar product. -/
theorem consolidate_msm (Q : List G) {nbitsQ : Nat} (hn : 0 < nbitsQ) (hQ : Q.length = nbitsQ)
    (Q_prev : Option G) (k : List Nat) (a : List G)
    (hbits : ∀ i, Q.getD i 0 = msm (k.map fun x => Bit x i) a)
    (hk : ∀ x ∈ k, BitLen x ≤ nbitsQ) :
    consolidate Q nbitsQ Q_prev = some (addPrev Q_prev (msm k a)) := by
  rw [consolidate_eq Q hn hQ]
  simp only [hbits]
  rw [sum_two_pow_msm_Bit, map_mod_of_lt (fun x hx => lt_two_pow_of_BitLen_le (hk x hx))]

end Adders

theorem ntables_cover {L g : Nat} (hg : 1 ≤ g) (hL : 1 ≤ L) :
    ((L + g - 1) / g - 1) * g ≤ L ∧ L ≤ (L + g - 1) / g * g := by
  obtain ⟨q, hq, h1, h2⟩ := ntables_bounds hg hL
  rw [hq, Nat.add_sub_cancel, Nat.succ_mul]
  omega

theorem length_pos_of_ne_nil {α : Type} {a : List α} (ha : a ≠ []) : 1 ≤ a.length := by
  cases a with
  | nil => exact absurd rfl ha
  | cons _ _ => simp

section Orchestrator

variable {G : Type} [AddCommMonoid G] [Codec G]

theorem ScalarMultG1_loop_eq (a : List G) (k : List Nat) {gsize : Nat} (hg : gsize ≤ 62) :
    ∀ n, n * gsize ≤ a.length → n * gsize ≤ k.length →
      ScalarMultG1.loop a k gsize n = some (msm (k.take (n * gsize)) (a.take (n * gsize))) := by
  intro n
  induction n with
  | zero => intro _ _; simp [ScalarMultG1.loop]
  | succ n ih =>
    intro ha hk
    rw [Nat.succ_mul] at ha hk
    obtain ⟨t, ht, _, hget⟩ :=
      NewTableG1_spec ((a.take ((n + 1) * gsize)).drop (n * gsize)) hg
    have hle : n * gsize ≤ (n + 1) * gsize := by rw [Nat.succ_mul]; omega
    have hkl : ((k.take ((n + 1) * gsize)).drop (n * gsize)).length ≤ gsize := by
      simp [Nat.succ_mul]; omega
    have hsplit := msm_take_drop (n * gsize) (k.take ((n + 1) * gsize))
      (a.take ((n + 1) * gsize))
    rw [List.take_take, List.take_take, min_eq_left hle] at hsplit
    unfold ScalarMultG1.loop
    rw [ih (by omega) (by omega)]
    simp only [Option.some_bind, Nat.cast_add, Nat.cast_one]
    rw [(chunk_cast n gsize).1, (chunk_cast n gsize).2,
      slice_natCast a hle (by rw [Nat.succ_mul]; omega),
      slice_natCast k hle (by rw [Nat.succ_mul]; omega)]
    simp only [Option.some_bind, ht]
    rw [MulTableG1_eq (by omega) hget _ hkl, hsplit]
    simp [addPrev, add_comm]

/-- `ScalarMultG1` computes the multi-scalar product whenever the scalars cover
all chunks but the last and do not go beyond the last chunk. -/
theorem ScalarMultG1_eq (a : List G) (k : List Nat) (Q_prev : Option G) {gsize : Nat}
    (hg1 : 1 ≤ gsize) (hg : gsize ≤ 62) (ha : a ≠ [])
    (hk1 : ((a.length + gsize - 1) / gsize - 1) * gsize ≤ k.length)
    (hk2 : k.length ≤ (a.length + gsize - 1) / gsize * gsize) :
    ScalarMultG1 a k Q_prev gsize = some (addPrev Q_prev (msm k a)) := by
  have hL : 1 ≤ a.length := by
    cases a with
    | nil => exact absurd rfl ha
    | cons _ _ => simp
  obtain ⟨q, hq, hq1, hq2⟩ := ntables_bounds hg1 hL
  rw [hq] at hk1 hk2
  rw [Nat.add_sub_cancel] at hk1
  rw [Nat.succ_mul] at hk2
  obtain ⟨t, ht, _, hget⟩ := NewTableG1_spec (a.drop (q * gsize)) hg
  have hkl : (k.drop (q * gsize)).length ≤ gsize := by simp; omega
  have hc : ((((q + 1 : Nat) : Int) - 1) * (gsize : Int)) = ((q * gsize : Nat) : Int) := by
    push_cast; ring
  have hn : ((((q + 1 : Nat) : Int) - 1)).toNat = q := by
    have : (((q + 1 : Nat) : Int) - 1) = (q : Int) := by push_cast; ring
    rw [this, Int.toNat_ofNat]
  unfold ScalarMultG1
  rw [if_neg (by omega)]
  simp only [hq]
  rw [hn, hc, ScalarMultG1_loop_eq a k hg q (by omega) hk1,
    sliceFrom_natCast a (by omega), sliceFrom_natCast k hk1]
  simp only [Option.some_bind, ht]
  rw [MulTableG1_eq (by omega) hget _ hkl, msm_take_drop (q * gsize) k a]
  simp [addPrev, add_comm]

theorem ScalarMultNoDoubleG1_loop_eq (a : List G) (k_ext : List Nat) {gsize nbitsQ : Nat}
    (hg : gsize ≤ 62) (hbits : ∀ x ∈ k_ext, BitLen x ≤ nbitsQ) :
    ∀ n, n * gsize ≤ a.length → n * gsize ≤ k_ext.length →
      ∃ Q, ScalarMultNoDoubleG1.loop a k_ext gsize (List.replicate nbitsQ 0) n = some Q ∧
        Q.length = nbitsQ ∧
        ∀ i, Q.getD i 0 =
          msm ((k_ext.take (n * gsize)).map fun x => Bit x i) (a.take (n * gsize)) := by
  intro n
  induction n with
  | zero =>
    intro _ _
    refine ⟨List.replicate nbitsQ 0, rfl, by simp, ?_⟩
    intro i
    simp [List.getD_eq_getElem?_getD, List.getElem?_replicate]
    split <;> rfl
  | succ n ih =>
    intro ha hk
    rw [Nat.succ_mul] at ha hk
    obtain ⟨Q, hQ, hQlen, hQget⟩ := ih (by omega) (by omega)
    obtain ⟨t, ht, _, hget⟩ :=
      NewTableG1_spec ((a.take ((n + 1) * gsize)).drop (n * gsize)) hg
    have hle : n * gsize ≤ (n + 1) * gsize := by rw [Nat.succ_mul]; omega
    have hkl : ((k_ext.take ((n + 1) * gsize)).drop (n * gsize)).length = gsize := by
      simp [Nat.succ_mul]; omega
    have hmsb : getMsb ((k_ext.take ((n + 1) * gsize)).drop (n * gsize)) ≤ Q.length := by
      rw [hQlen]
      exact getMsb_le fun x hx => hbits x (List.mem_of_mem_take (List.mem_of_mem_drop hx))
    obtain ⟨Q1, h1, h2, h3⟩ := addBits_getMsb (A := (a.take ((n + 1) * gsize)).drop (n * gsize))
      (by omega) (by rw [hkl]; exact hget) Q hmsb
    refine ⟨Q1, ?_, by omega, ?_⟩
    · unfold ScalarMultNoDoubleG1.loop
      rw [hQ]
      simp only [Option.some_bind, Nat.cast_add, Nat.cast_one]
      rw [(chunk_cast n gsize).1, (chunk_cast n gsize).2,
        slice_natCast a hle (by rw [Nat.succ_mul]; omega),
        slice_natCast k_ext hle (by rw [Nat.succ_mul]; omega)]
      simp only [Option.some_bind, ht, h1]
    · intro i
      rw [h3 i, hQget i, msm_map_chunk _ k_ext a hle]

/-- `ScalarMultNoDoubleG1` computes the multi-scalar product whenever no scalar
is longer than `nbitsQ` bits and the scalars do not go beyond the last chunk. -/
theorem ScalarMultNoDoubleG1_eq (a : List G) (k : List Nat) (Q_prev : Option G)
    {gsize nbitsQ : Nat} (hn : 0 < nbitsQ) (hg1 : 1 ≤ gsize) (hg : gsize ≤ 62) (ha : a ≠ [])
    (hk2 : k.length ≤ (a.length + gsize - 1) / gsize * gsize)
    (hbits : ∀ x ∈ k, BitLen x ≤ nbitsQ) :
    ScalarMultNoDoubleG1 nbitsQ a k Q_prev gsize = some (addPrev Q_prev (msm k a)) := by
  have hL : 1 ≤ a.length := by
    cases a with
    | nil => exact absurd rfl ha
    | cons _ _ => simp
  obtain ⟨q, hq, hq1, hq2⟩ := ntables_bounds hg1 hL
  rw [hq] at hk2
  rw [Nat.succ_mul] at hk2
  have hc : ((((q + 1 : Nat) : Int) - 1) * (gsize : Int)) = ((q * gsize : Nat) : Int) := by
    push_cast; ring
  have hn1 : ((((q + 1 : Nat) : Int) - 1)).toNat = q := by
    have : (((q + 1 : Nat) : Int) - 1) = (q : Int) := by push_cast; ring
    rw [this, Int.toNat_ofNat]
  have hpad : ((((q + 1 : Nat) : Int) * (gsize : Int)) - (k.length : Int)).toNat
      = q * gsize + gsize - k.length := by
    have : (((q + 1 : Nat) : Int) * (gsize : Int)) - (k.length : Int)
        = ((q * gsize + gsize - k.length : Nat) : Int) := by
      rw [Nat.cast_sub hk2]; push_cast; ring
    rw [this, Int.toNat_ofNat]
  obtain ⟨k_ext, hke⟩ : ∃ k_ext, k_ext = k ++ List.replicate (q * gsize + gsize - k.length) 0 :=
    ⟨_, rfl⟩
  have hklen : k_ext.length = q * gsize + gsize := by rw [hke]; simp; omega
  have hbits1 : ∀ x ∈ k_ext, BitLen x ≤ nbitsQ := by
    intro x hx
    rw [hke] at hx
    rcases List.mem_append.1 hx with h | h
    · exact hbits x h
    · rw [(List.mem_replicate.1 h).2, BitLen_zero]; omega
  obtain ⟨Q, hQ, hQlen, hQget⟩ :=
    ScalarMultNoDoubleG1_loop_eq a k_ext hg hbits1 q (by omega) (by omega)
  obtain ⟨t, ht, _, hget⟩ := NewTableG1_spec (a.drop (q * gsize)) hg
  have hkl : (k_ext.drop (q * gsize)).length = gsize := by simp [hklen]
  have hmsb : getMsb (k_ext.drop (q * gsize)) ≤ Q.length := by
    rw [hQlen]
    exact getMsb_le fun x hx => hbits1 x (List.mem_of_mem_drop hx)
  obtain ⟨Q1, h1, h2, h3⟩ := addBits_getMsb (A := a.drop (q * gsize))
    (by omega) (by rw [hkl]; exact hget) Q hmsb
  have hfin : ∀ i, Q1.getD i 0 = msm (k_ext.map fun x => Bit x i) a := by
    intro i
    rw [h3 i, hQget i, ← msm_map_take_drop]
  unfold ScalarMultNoDoubleG1
  rw [if_neg (by omega)]
  simp only [hq]
  rw [hn1, hc, hpad, ← hke, hQ, sliceFrom_natCast a (by omega),
    sliceFrom_natCast k_ext (by omega)]
  simp only [Option.some_bind, ht, h1]
  rw [consolidate_msm Q1 hn (by omega) Q_prev k_ext a hfin hbits1, hke, msm_append_zeros]

end Orchestrator

/-! ## Window sizes beyond the machine word

For `gsize ≥ 63` the shift `1<<gsize` is not positive, the loop of `NewTableG1`
does not run and the table is the single entry `0`. -/

theorem getBit_loop_high (i : Nat) (ks : List Nat) : ∀ idx acc, 64 ≤ idx → acc < 2 ^ 64 →
    getBit.loop i ks idx acc = acc := by
  induction ks with
  | nil => intro idx acc _ _; rfl
  | cons x xs ih =>
    intro idx acc hidx hacc
    have h0 : wrapUint (Bit x i <<< idx) = 0 := by
      unfold wrapUint
      rw [Nat.shiftLeft_eq]
      exact Nat.mod_eq_zero_of_dvd (Dvd.dvd.mul_left (pow_dvd_pow 2 hidx) _)
    have h1 : wrapUint (acc + 0) = acc := by
      unfold wrapUint; rw [Nat.add_zero]; exact Nat.mod_eq_of_lt hacc
    simp only [getBit.loop, h0, h1]
    exact ih (idx + 1) acc (by omega) hacc

theorem getBit_loop_append (i : Nat) (l1 l2 : List Nat) : ∀ idx acc,
    getBit.loop i (l1 ++ l2) idx acc
      = getBit.loop i l2 (idx + l1.length) (getBit.loop i l1 idx acc) := by
  induction l1 with
  | nil => intro idx acc; simp [getBit.loop]
  | cons x xs ih =>
    intro idx acc
    have h := ih (idx + 1) (wrapUint (acc + wrapUint (Bit x i <<< idx)))
    rw [show idx + 1 + xs.length = idx + (xs.length + 1) by omega] at h
    simpa only [List.cons_append, getBit.loop, List.length_cons] using h

theorem getBit_take (ks : List Nat) (i : Nat) : getBit ks i = getBit (ks.take 64) i := by
  have hlt : getBit (ks.take 64) i < 2 ^ 64 :=
    lt_of_lt_of_le (getBit_lt (by simp) i) (Nat.pow_le_pow_right (by norm_num) (by simp))
  have hsplit : getBit ks i
      = getBit.loop i (ks.drop 64) (0 + (ks.take 64).length) (getBit (ks.take 64) i) := by
    conv_lhs => rw [← List.take_append_drop 64 ks]
    unfold getBit
    rw [getBit_loop_append]
  rw [hsplit]
  rcases Nat.lt_or_ge ks.length 64 with h | h
  · rw [List.drop_of_length_le (by omega)]
    rfl
  · exact getBit_loop_high i _ _ _ (by simp; omega) hlt

theorem packBits_eq_zero (bs : List Nat) : packBits bs = 0 ↔ ∀ b ∈ bs, b = 0 := by
  induction bs with
  | nil => simp [packBits]
  | cons b bs ih =>
    simp only [packBits, List.mem_cons, forall_eq_or_imp]
    rw [← ih]
    constructor
    · intro h
      exact ⟨by omega, by omega⟩
    · rintro ⟨h1, h2⟩
      omega

theorem getBit_eq_zero_iff (ks : List Nat) (i : Nat) :
    getBit ks i = 0 ↔ ∀ x ∈ ks.take 64, Bit x i = 0 := by
  rw [getBit_take, getBit_eq_packBits (by simp), packBits_eq_zero]
  constructor
  · intro h x hx
    exact h _ (List.mem_map_of_mem _ hx)
  · intro h b hb
    obtain ⟨x, hx, rfl⟩ := List.mem_map.1 hb
    exact h x hx

theorem exists_Bit_of_ne_zero {x : Nat} (hx : x ≠ 0) : ∃ i, i < BitLen x ∧ Bit x i ≠ 0 := by
  obtain ⟨i, hi⟩ := Nat.ne_zero_implies_bit_true hx
  rw [Nat.testBit_to_div_mod] at hi
  have hb : Bit x i = 1 := by simpa [Bit] using hi
  refine ⟨i, ?_, by omega⟩
  have h1 : 2 ^ i ≤ x := by
    by_contra hlt
    have : x / 2 ^ i = 0 := Nat.div_eq_of_lt (by omega)
    simp [Bit, this] at hb
  have h2 : 2 ^ i < 2 ^ BitLen x := lt_of_le_of_lt h1 (lt_two_pow_BitLen x)
  exact (Nat.pow_lt_pow_iff_right (by norm_num : 1 < 2)).1 h2

theorem Bit_zero_left (i : Nat) : Bit 0 i = 0 := by simp [Bit]

/-- No window of the group selects a table entry exactly when the first 64
scalars of the group are zero. -/
theorem quiet_iff (ks : List Nat) :
    (∀ i, i < getMsb ks → getBit ks i = 0) ↔ ∀ x ∈ ks.take 64, x = 0 := by
  constructor
  · intro h x hx
    by_contra hne
    obtain ⟨i, hi, hb⟩ := exists_Bit_of_ne_zero hne
    have hmsb : i < getMsb ks := lt_of_lt_of_le hi (BitLen_le_getMsb (List.mem_of_mem_take hx))
    exact hb ((getBit_eq_zero_iff ks i).1 (h i hmsb) x hx)
  · intro h i _
    rw [getBit_eq_zero_iff]
    intro x hx
    rw [h x hx, Bit_zero_left]

theorem take_append_zeros_quiet (k : List Nat) (n : Nat) :
    (∀ x ∈ (k ++ List.replicate n 0).take 64, x = 0) ↔ ∀ x ∈ k.take 64, x = 0 := by
  rw [List.take_append_eq_append_take]
  constructor
  · intro h x hx
    exact h x (List.mem_append_left _ hx)
  · intro h x hx
    rcases List.mem_append.1 hx with h1 | h1
    · exact h x h1
    · exact (List.mem_replicate.1 (List.mem_of_mem_take h1)).2

section Wide

variable {G : Type} [AddCommMonoid G]

theorem NewTableG1_wide [Codec G] (a : List G) {gsize : Nat} (hg : 63 ≤ gsize) :
    NewTableG1 a gsize false = some ⟨[0]⟩ := by
  simp [NewTableG1, tableIters_of_ge hg, NewTableG1.loop]

theorem MulTableG1_loop_wide (ks : List Nat) : ∀ (n : Nat) (Q : G),
    ((∀ i, i < n → getBit ks i = 0) → MulTableG1.loop ⟨[0]⟩ ks n Q = some (2 ^ n • Q)) ∧
    ((¬ ∀ i, i < n → getBit ks i = 0) → MulTableG1.loop ⟨[0]⟩ ks n Q = none) := by
  intro n
  induction n with
  | zero =>
    intro Q
    exact ⟨fun _ => by simp [MulTableG1.loop], fun h => absurd (fun i hi => by omega) h⟩
  | succ n ih =>
    intro Q
    constructor
    · intro h
      have hn : getBit ks n = 0 := h n (by omega)
      unfold MulTableG1.loop
      rw [if_neg (by simp [hn]), (ih (Q + Q)).1 (fun i hi => h i (by omega)), pow_succ, mul_two,
        add_nsmul, smul_add]
    · intro h
      unfold MulTableG1.loop
      split
      · rename_i hb
        have : ([0] : List G)[getBit ks n]? = none := by
          apply List.getElem?_eq_none
          simp; omega
        simp [this]
      · rename_i hb
        have hn : getBit ks n = 0 := by simpa using hb
        apply (ih (Q + Q)).2
        intro hall
        apply h
        intro i hi
        rcases Nat.lt_or_ge i n with h1 | h1
        · exact hall i h1
        · have : i = n := by omega
          rw [this]; exact hn

/-- `MulTableG1` on the one-entry table: the outcome is `Q_prev` when the first
64 scalars are zero and a failed table lookup otherwise. -/
theorem MulTableG1_wide (k : List Nat) (Q_prev : Option G) (gsize : Nat) :
    ((∀ x ∈ k.take 64, x = 0) → MulTableG1 ⟨[0]⟩ k Q_prev gsize = some (addPrev Q_prev 0)) ∧
    ((¬ ∀ x ∈ k.take 64, x = 0) → MulTableG1 ⟨[0]⟩ k Q_prev gsize = none) := by
  have hq := quiet_iff (k ++ List.replicate (gsize - k.length) 0)
  rw [take_append_zeros_quiet] at hq
  constructor
  · intro h
    unfold MulTableG1
    simp only []
    rw [(MulTableG1_loop_wide _ _ (0 : G)).1 (hq.2 h)]
    simp
  · intro h
    unfold MulTableG1
    simp only []
    rw [(MulTableG1_loop_wide _ _ (0 : G)).2 (fun hall => h (hq.1 hall))]
    rfl

theorem quietUpTo_succ (k : List Nat) (g n : Nat) :
    quietUpTo k g (n + 1) ↔ quietUpTo k g n ∧ ∀ x ∈ (chunkOf k g n).take 64, x = 0 := by
  constructor
  · intro h
    exact ⟨fun j hj => h j (by omega), h n (by omega)⟩
  · rintro ⟨h1, h2⟩ j hj
    rcases Nat.lt_or_ge j n with h | h
    · exact h1 j h
    · have : j = n := by omega
      rw [this]; exact h2

theorem forall_zipWith_add_eq_zero (l : List Nat) : ∀ (l1 : List Nat), l.length = l1.length →
    ((∀ x ∈ List.zipWith (fun x y => x + y) l l1, x = 0) ↔
      (∀ x ∈ l, x = 0) ∧ ∀ x ∈ l1, x = 0) := by
  induction l with
  | nil =>
    intro l1 h
    have : l1 = [] := List.length_eq_zero.1 h.symm
    subst this
    simp
  | cons x xs ih =>
    intro l1 h
    cases l1 with
    | nil => simp at h
    | cons y ys =>
      simp only [List.zipWith_cons_cons, List.mem_cons, forall_eq_or_imp,
        ih ys (by simpa using h)]
      constructor
      · rintro ⟨h1, h2, h3⟩
        exact ⟨⟨by omega, h2⟩, by omega, h3⟩
      · rintro ⟨⟨h1, h2⟩, h3, h4⟩
        exact ⟨by omega, h2, h4⟩

theorem quietUpTo_add (k k1 : List Nat) (g n : Nat) (h : k.length = k1.length) :
    quietUpTo (List.zipWith (fun x y => x + y) k k1) g n ↔
      quietUpTo k g n ∧ quietUpTo k1 g n := by
  have hchunk : ∀ j, ((∀ x ∈ (chunkOf (List.zipWith (fun x y => x + y) k k1) g j).take 64, x = 0)
      ↔ (∀ x ∈ (chunkOf k g j).take 64, x = 0) ∧ ∀ x ∈ (chunkOf k1 g j).take 64, x = 0) := by
    intro j
    unfold chunkOf
    rw [List.take_zipWith, List.drop_zipWith, List.take_zipWith]
    apply forall_zipWith_add_eq_zero
    simp [h]
  constructor
  · intro hq
    exact ⟨fun j hj => ((hchunk j).1 (hq j hj)).1, fun j hj => ((hchunk j).1 (hq j hj)).2⟩
  · rintro ⟨h1, h2⟩ j hj
    exact (hchunk j).2 ⟨h1 j hj, h2 j hj⟩

theorem ScalarMultG1_loop_wide [Codec G] (a : List G) (k : List Nat) {gsize : Nat}
    (hg : 63 ≤ gsize) : ∀ n, n * gsize ≤ a.length → n * gsize ≤ k.length →
      (quietUpTo k gsize n → ScalarMultG1.loop a k gsize n = some 0) ∧
      (¬ quietUpTo k gsize n → ScalarMultG1.loop a k gsize n = none) := by
  intro n
  induction n with
  | zero =>
    intro _ _
    exact ⟨fun _ => rfl, fun h => absurd (fun j hj => by omega) h⟩
  | succ n ih =>
    intro ha hk
    have hle : n * gsize ≤ (n + 1) * gsize := by rw [Nat.succ_mul]; omega
    have hstep : ∀ Q : G, ((slice a ((n : Int) * gsize) (((n : Int) + 1) * gsize)).bind fun ai =>
        (NewTableG1 ai gsize false).bind fun table =>
          (slice k ((n : Int) * gsize) (((n : Int) + 1) * gsize)).bind fun ki =>
            MulTableG1 table ki (some Q) gsize)
        = MulTableG1 ⟨[0]⟩ (chunkOf k gsize n) (some Q) gsize := by
      intro Q
      rw [(chunk_cast n gsize).1, (chunk_cast n gsize).2, slice_natCast a hle ha,
        slice_natCast k hle hk]
      simp only [Option.some_bind, NewTableG1_wide _ hg]
      rfl
    rw [Nat.succ_mul] at ha hk
    obtain ⟨ih1, ih2⟩ := ih (by omega) (by omega)
    rw [quietUpTo_succ]
    constructor
    · rintro ⟨h1, h2⟩
      unfold ScalarMultG1.loop
      rw [ih1 h1]
      simp only [Option.some_bind, Nat.cast_add, Nat.cast_one]
      rw [hstep, (MulTableG1_wide _ _ _).1 h2]
      simp [addPrev]
    · intro h
      unfold ScalarMultG1.loop
      by_cases h1 : quietUpTo k gsize n
      · rw [ih1 h1]
        simp only [Option.some_bind, Nat.cast_add, Nat.cast_one]
        rw [hstep, (MulTableG1_wide _ _ _).2 (fun h2 => h ⟨h1, h2⟩)]
      · rw [ih2 h1]
        rfl

/-- `ScalarMultG1` for `gsize ≥ 63`: the outcome is `Q_prev` (the identity
without one) when the first 64 scalars of every chunk are zero, and a failed
table lookup otherwise. -/
theorem ScalarMultG1_wide [Codec G] (a : List G) (k : List Nat) (Q_prev : Option G)
    {gsize : Nat} (hg : 63 ≤ gsize) (ha : a ≠ [])
    (hk1 : ((a.length + gsize - 1) / gsize - 1) * gsize ≤ k.length)
    (hk2 : k.length ≤ (a.length + gsize - 1) / gsize * gsize) :
    (quietUpTo k gsize ((a.length + gsize - 1) / gsize) →
        ScalarMultG1 a k Q_prev gsize = some (addPrev Q_prev 0)) ∧
      (¬ quietUpTo k gsize ((a.length + gsize - 1) / gsize) →
        ScalarMultG1 a k Q_prev gsize = none) := by
  have hg1 : 1 ≤ gsize := by omega
  have hL : 1 ≤ a.length := by
    cases a with
    | nil => exact absurd rfl ha
    | cons _ _ => simp
  obtain ⟨q, hq, hq1, hq2⟩ := ntables_bounds hg1 hL
  rw [hq] at hk1 hk2 ⊢
  rw [Nat.add_sub_cancel] at hk1
  have hk3 : k.length ≤ q * gsize + gsize := by rw [Nat.succ_mul] at hk2; exact hk2
  have hc : ((((q + 1 : Nat) : Int) - 1) * (gsize : Int)) = ((q * gsize : Nat) : Int) := by
    push_cast; ring
  have hn : ((((q + 1 : Nat) : Int) - 1)).toNat = q := by
    have : (((q + 1 : Nat) : Int) - 1) = (q : Int) := by push_cast; ring
    rw [this, Int.toNat_ofNat]
  have hlast : chunkOf k gsize q = k.drop (q * gsize) := by
    unfold chunkOf
    rw [List.take_of_length_le hk2]
  obtain ⟨ih1, ih2⟩ := ScalarMultG1_loop_wide a k hg q (by omega) hk1
  have hunf : ScalarMultG1 a k Q_prev gsize = (ScalarMultG1.loop a k gsize q).bind fun Q =>
      (MulTableG1 ⟨[0]⟩ (chunkOf k gsize q) (some Q) gsize).map (addPrev Q_prev) := by
    unfold ScalarMultG1
    rw [if_neg (by omega)]
    simp only [hq]
    rw [hn, hc, sliceFrom_natCast a (by omega), sliceFrom_natCast k hk1, hlast]
    simp only [Option.some_bind, NewTableG1_wide _ hg]
  rw [hunf, quietUpTo_succ]
  constructor
  · rintro ⟨h1, h2⟩
    rw [ih1 h1, Option.some_bind, (MulTableG1_wide _ _ _).1 h2]
    simp [addPrev]
  · intro h
    by_cases h1 : quietUpTo k gsize q
    · rw [ih1 h1, Option.some_bind, (MulTableG1_wide _ _ _).2 (fun h2 => h ⟨h1, h2⟩)]
      rfl
    · rw [ih2 h1]
      rfl

theorem getMsb_replicate_zero (n : Nat) : getMsb (List.replicate n 0) = 0 :=
  Nat.le_zero.1 (getMsb_le fun x hx => by
    rw [(List.mem_replicate.1 hx).2, BitLen_zero])

theorem MulTableG1_zeros (t : TableG1 G) (n : Nat) (Q_prev : Option G) (gsize : Nat) :
    MulTableG1 t (List.replicate n 0) Q_prev gsize = some (addPrev Q_prev 0) := by
  unfold MulTableG1
  simp only [← List.replicate_add, getMsb_replicate_zero, MulTableG1.loop, Option.map_some']

theorem addBits_wide (ks : List Nat) : ∀ (n : Nat) (Q : List G),
    ((∀ i, i < n → getBit ks i = 0) → addBits ⟨[0]⟩ ks n Q = some Q) ∧
    ((¬ ∀ i, i < n → getBit ks i = 0) → addBits ⟨[0]⟩ ks n Q = none) := by
  intro n
  induction n with
  | zero =>
    intro Q
    exact ⟨fun _ => rfl, fun h => absurd (fun i hi => by omega) h⟩
  | succ n ih =>
    intro Q
    constructor
    · intro h
      have hn : getBit ks n = 0 := h n (by omega)
      unfold addBits
      rw [if_neg (by simp [hn])]
      exact (ih Q).1 (fun i hi => h i (by omega))
    · intro h
      unfold addBits
      split
      · rename_i hb
        have : ([0] : List G)[getBit ks n]? = none := by
          apply List.getElem?_eq_none
          simp; omega
        cases Q[n]? <;> simp [this]
      · rename_i hb
        have hn : getBit ks n = 0 := by simpa using hb
        apply (ih Q).2
        intro hall
        apply h
        intro i hi
        rcases Nat.lt_or_ge i n with h1 | h1
        · exact hall i h1
        · have : i = n := by omega
          rw [this]; exact hn

theorem addBits_getMsb_wide (ks : List Nat) (Q : List G) :
    ((∀ x ∈ ks.take 64, x = 0) → addBits ⟨[0]⟩ ks (getMsb ks) Q = some Q) ∧
    ((¬ ∀ x ∈ ks.take 64, x = 0) → addBits ⟨[0]⟩ ks (getMsb ks) Q = none) :=
  ⟨fun h => (addBits_wide ks _ Q).1 ((quiet_iff ks).2 h),
    fun h => (addBits_wide ks _ Q).2 (fun hall => h ((quiet_iff ks).1 hall))⟩

theorem consolidate_zeros {nbitsQ : Nat} (hn : 0 < nbitsQ) (Q_prev : Option G) :
    consolidate (List.replicate nbitsQ (0 : G)) nbitsQ Q_prev = some (addPrev Q_prev 0) := by
  rw [consolidate_eq _ hn (by simp)]
  have : ∀ i, (List.replicate nbitsQ (0 : G)).getD i 0 = 0 := by
    intro i
    simp only [List.getD_eq_getElem?_getD, List.getElem?_replicate]
    split <;> rfl
  simp [this]

theorem chunkOf_append_zeros_quiet (k : List Nat) (m g j : Nat) :
    (∀ x ∈ (chunkOf (k ++ List.replicate m 0) g j).take 64, x = 0) ↔
      ∀ x ∈ (chunkOf k g j).take 64, x = 0 := by
  unfold chunkOf
  rw [List.take_append_eq_append_take, List.drop_append_eq_append_drop,
    List.take_append_eq_append_take]
  constructor
  · intro h x hx
    exact h x (List.mem_append_left _ hx)
  · intro h x hx
    rcases List.mem_append.1 hx with h1 | h1
    · exact h x h1
    · exact (List.mem_replicate.1
        (List.mem_of_mem_take (List.mem_of_mem_drop (List.mem_of_mem_take h1)))).2

theorem quietUpTo_append_zeros (k : List Nat) (m g n : Nat) :
    quietUpTo (k ++ List.replicate m 0) g n ↔ quietUpTo k g n := by
  constructor
  · intro h j hj
    exact (chunkOf_append_zeros_quiet k m g j).1 (h j hj)
  · intro h j hj
    exact (chunkOf_append_zeros_quiet k m g j).2 (h j hj)

theorem ScalarMultNoDoubleG1_loop_wide [Codec G] (a : List G) (k_ext : List Nat)
    (Q0 : List G) {gsize : Nat} (hg : 63 ≤ gsize) :
    ∀ n, n * gsize ≤ a.length → n * gsize ≤ k_ext.length →
      (quietUpTo k_ext gsize n → ScalarMultNoDoubleG1.loop a k_ext gsize Q0 n = some Q0) ∧
      (¬ quietUpTo k_ext gsize n → ScalarMultNoDoubleG1.loop a k_ext gsize Q0 n = none) := by
  intro n
  induction n with
  | zero =>
    intro _ _
    exact ⟨fun _ => rfl, fun h => absurd (fun j hj => by omega) h⟩
  | succ n ih =>
    intro ha hk
    have hle : n * gsize ≤ (n + 1) * gsize := by rw [Nat.succ_mul]; omega
    have hstep : ∀ Q : List G,
        ((slice a ((n : Int) * gsize) (((n : Int) + 1) * gsize)).bind fun ai =>
          (NewTableG1 ai gsize false).bind fun table =>
            (slice k_ext ((n : Int) * gsize) (((n : Int) + 1) * gsize)).bind fun ks =>
              addBits table ks (getMsb ks) Q)
        = addBits ⟨[0]⟩ (chunkOf k_ext gsize n) (getMsb (chunkOf k_ext gsize n)) Q := by
      intro Q
      rw [(chunk_cast n gsize).1, (chunk_cast n gsize).2, slice_natCast a hle ha,
        slice_natCast k_ext hle hk]
      simp only [Option.some_bind, NewTableG1_wide _ hg]
      rfl
    rw [Nat.succ_mul] at ha hk
    obtain ⟨ih1, ih2⟩ := ih (by omega) (by omega)
    rw [quietUpTo_succ]
    constructor
    · rintro ⟨h1, h2⟩
      unfold ScalarMultNoDoubleG1.loop
      rw [ih1 h1]
      simp only [Option.some_bind, Nat.cast_add, Nat.cast_one]
      rw [hstep, (addBits_getMsb_wide _ _).1 h2]
    · intro h
      unfold ScalarMultNoDoubleG1.loop
      by_cases h1 : quietUpTo k_ext gsize n
      · rw [ih1 h1]
        simp only [Option.some_bind, Nat.cast_add, Nat.cast_one]
        rw [hstep, (addBits_getMsb_wide _ _).2 (fun h2 => h ⟨h1, h2⟩)]
      · rw [ih2 h1]
        rfl

/-- `ScalarMultNoDoubleG1` for `gsize ≥ 63`: the outcome is `Q_prev` (the
identity without one) when the first 64 scalars of every chunk are zero, and a
failed table lookup otherwise. -/
theorem ScalarMultNoDoubleG1_wide [Codec G] (a : List G) (k : List Nat) (Q_prev : Option G)
    {gsize nbitsQ : Nat} (hn : 0 < nbitsQ) (hg : 63 ≤ gsize) (ha : a ≠ [])
    (hk2 : k.length ≤ (a.length + gsize - 1) / gsize * gsize) :
    (quietUpTo k gsize ((a.length + gsize - 1) / gsize) →
        ScalarMultNoDoubleG1 nbitsQ a k Q_prev gsize = some (addPrev Q_prev 0)) ∧
      (¬ quietUpTo k gsize ((a.length + gsize - 1) / gsize) →
        ScalarMultNoDoubleG1 nbitsQ a k Q_prev gsize = none) := by
  have hg1 : 1 ≤ gsize := by omega
  have hL : 1 ≤ a.length := by
    cases a with
    | nil => exact absurd rfl ha
    | cons _ _ => simp
  obtain ⟨q, hq, hq1, hq2⟩ := ntables_bounds hg1 hL
  rw [hq] at hk2 ⊢
  rw [Nat.succ_mul] at hk2
  have hc : ((((q + 1 : Nat) : Int) - 1) * (gsize : Int)) = ((q * gsize : Nat) : Int) := by
    push_cast; ring
  have hn1 : ((((q + 1 : Nat) : Int) - 1)).toNat = q := by
    have : (((q + 1 : Nat) : Int) - 1) = (q : Int) := by push_cast; ring
    rw [this, Int.toNat_ofNat]
  have hpad : ((((q + 1 : Nat) : Int) * (gsize : Int)) - (k.length : Int)).toNat
      = q * gsize + gsize - k.length := by
    have : (((q + 1 : Nat) : Int) * (gsize : Int)) - (k.length : Int)
        = ((q * gsize + gsize - k.length : Nat) : Int) := by
      rw [Nat.cast_sub hk2]; push_cast; ring
    rw [this, Int.toNat_ofNat]
  obtain ⟨k_ext, hke⟩ : ∃ k_ext, k_ext = k ++ List.replicate (q * gsize + gsize - k.length) 0 :=
    ⟨_, rfl⟩
  have hklen : k_ext.length = q * gsize + gsize := by rw [hke]; simp; omega
  have hquiet : quietUpTo k_ext gsize (q + 1) ↔ quietUpTo k gsize (q + 1) := by
    rw [hke]; exact quietUpTo_append_zeros _ _ _ _
  have hlast : chunkOf k_ext gsize q = k_ext.drop (q * gsize) := by
    unfold chunkOf
    rw [List.take_of_length_le (by rw [hklen, Nat.succ_mul])]
  obtain ⟨ih1, ih2⟩ := ScalarMultNoDoubleG1_loop_wide a k_ext (List.replicate nbitsQ (0 : G))
    hg q (by omega) (by omega)
  have hunf : ScalarMultNoDoubleG1 nbitsQ a k Q_prev gsize
      = (ScalarMultNoDoubleG1.loop a k_ext gsize (List.replicate nbitsQ 0) q).bind fun Q =>
        (addBits ⟨[0]⟩ (chunkOf k_ext gsize q) (getMsb (chunkOf k_ext gsize q)) Q).bind
          fun Q1 => consolidate Q1 nbitsQ Q_prev := by
    unfold ScalarMultNoDoubleG1
    rw [if_neg (by omega)]
    simp only [hq]
    rw [hn1, hc, hpad, ← hke, sliceFrom_natCast a (by omega),
      sliceFrom_natCast k_ext (by omega), hlast]
    simp only [Option.some_bind, NewTableG1_wide _ hg]
  rw [hunf, ← hquiet, quietUpTo_succ]
  constructor
  · rintro ⟨h1, h2⟩
    rw [ih1 h1, Option.some_bind, (addBits_getMsb_wide _ _).1 h2, Option.some_bind,
      consolidate_zeros hn]
  · intro h
    by_cases h1 : quietUpTo k_ext gsize q
    · rw [ih1 h1, Option.some_bind, (addBits_getMsb_wide _ _).2 (fun h2 => h ⟨h1, h2⟩)]
      rfl
    · rw [ih2 h1]
      rfl

end Wide

/-! ## The contract of the orchestrator -/

section Contract

variable {G : Type} [AddCommMonoid G] [Codec G]

theorem ScalarMultG1_prev (a : List G) (k : List Nat) (Q_prev : Option G) (gsize : Nat) :
    ScalarMultG1 a k Q_prev gsize = (ScalarMultG1 a k none gsize).map (addPrev Q_prev) := by
  unfold ScalarMultG1
  split
  · rfl
  · simp only [Option.map_bind, Function.comp_def, Option.map_map, addPrev_none_map]

theorem ScalarMultNoDoubleG1_prev (nbitsQ : Nat) (a : List G) (k : List Nat)
    (Q_prev : Option G) (gsize : Nat) :
    ScalarMultNoDoubleG1 nbitsQ a k Q_prev gsize
      = (ScalarMultNoDoubleG1 nbitsQ a k none gsize).map (addPrev Q_prev) := by
  unfold ScalarMultNoDoubleG1
  split
  · rfl
  · simp only [Option.map_bind, Function.comp_def, consolidate_prev _ _ Q_prev]

/-- C1: for a non-empty list of base points `a`, scalars `k` of the same length
and a window size `1 ≤ gsize ≤ 62` (so that `2^gsize` fits a 64-bit `int`),
`ScalarMultG1` returns the multi-scalar product, the sum of `k[i]` times `a[i]`,
plus `Q_prev` when one is supplied. -/
theorem ScalarMultG1_msm (a : List G) (k : List Nat) (gsize : Nat) (ha : a ≠ [])
    (hk : k.length = a.length) (hg1 : 1 ≤ gsize) (hg : gsize ≤ 62) :
    ScalarMultG1 a k none gsize = some (msm k a) ∧
      ∀ Q_prev, ScalarMultG1 a k (some Q_prev) gsize = some (msm k a + Q_prev) := by
  have hc := ntables_cover hg1 (length_pos_of_ne_nil ha)
  have h1 : ((a.length + gsize - 1) / gsize - 1) * gsize ≤ k.length := by rw [hk]; exact hc.1
  have h2 : k.length ≤ (a.length + gsize - 1) / gsize * gsize := by rw [hk]; exact hc.2
  exact ⟨ScalarMultG1_eq a k none hg1 hg ha h1 h2,
    fun Q_prev => ScalarMultG1_eq a k (some Q_prev) hg1 hg ha h1 h2⟩

/-- C2 as amended: for a non-empty list of base points `a`, scalars `k` of the
same length whose bit lengths are at most `nbitsQ`, and a window size
`1 ≤ gsize ≤ 62`, `ScalarMultNoDoubleG1` returns the multi-scalar product, plus
`Q_prev` when one is supplied. -/
theorem ScalarMultNoDoubleG1_msm (nbitsQ : Nat) (a : List G) (k : List Nat) (gsize : Nat)
    (hn : 0 < nbitsQ) (ha : a ≠ []) (hk : k.length = a.length)
    (hbits : ∀ x ∈ k, BitLen x ≤ nbitsQ) (hg1 : 1 ≤ gsize) (hg : gsize ≤ 62) :
    ScalarMultNoDoubleG1 nbitsQ a k none gsize = some (msm k a) ∧
      ∀ Q_prev, ScalarMultNoDoubleG1 nbitsQ a k (some Q_prev) gsize
        = some (msm k a + Q_prev) := by
  have hc := ntables_cover hg1 (length_pos_of_ne_nil ha)
  have h2 : k.length ≤ (a.length + gsize - 1) / gsize * gsize := by rw [hk]; exact hc.2
  exact ⟨ScalarMultNoDoubleG1_eq a k none hn hg1 hg ha h2 hbits,
    fun Q_prev => ScalarMultNoDoubleG1_eq a k (some Q_prev) hn hg1 hg ha h2 hbits⟩

/-- C3 as amended: for a non-empty list of base points `a`, a window size
`gsize ≥ 1`, and scalars `k` no longer than `a` that reach the last chunk and
have bit lengths at most `nbitsQ`, `ScalarMultG1` and `ScalarMultNoDoubleG1`
have the same outcome, and that outcome is a point when `gsize ≤ 62`. -/
theorem strategies_agree (nbitsQ : Nat) (a : List G) (k : List Nat) (Q_prev : Option G)
    (gsize : Nat) (hn : 0 < nbitsQ) (ha : a ≠ []) (hg1 : 1 ≤ gsize)
    (hk1 : ((a.length + gsize - 1) / gsize - 1) * gsize ≤ k.length)
    (hk2 : k.length ≤ a.length) (hbits : ∀ x ∈ k, BitLen x ≤ nbitsQ) :
    ScalarMultG1 a k Q_prev gsize = ScalarMultNoDoubleG1 nbitsQ a k Q_prev gsize ∧
      (gsize ≤ 62 → ∃ r, ScalarMultG1 a k Q_prev gsize = some r) := by
  have hc := ntables_cover hg1 (length_pos_of_ne_nil ha)
  have h2 : k.length ≤ (a.length + gsize - 1) / gsize * gsize := le_trans hk2 hc.2
  refine ⟨?_, fun hg => ⟨_, ScalarMultG1_eq a k Q_prev hg1 hg ha hk1 h2⟩⟩
  rcases Nat.lt_or_ge 62 gsize with hw | hs
  · obtain ⟨a1, a2⟩ := ScalarMultG1_wide a k Q_prev (by omega : 63 ≤ gsize) ha hk1 h2
    obtain ⟨b1, b2⟩ := ScalarMultNoDoubleG1_wide a k Q_prev hn
      (by omega : 63 ≤ gsize) ha h2
    by_cases h : quietUpTo k gsize ((a.length + gsize - 1) / gsize)
    · rw [a1 h, b1 h]
    · rw [a2 h, b2 h]
  · rw [ScalarMultG1_eq a k Q_prev hg1 hs ha hk1 h2,
      ScalarMultNoDoubleG1_eq a k Q_prev hn hg1 hs ha h2 hbits]

/-- C4 as amended: for a window size `gsize ≤ 62` the table built by
`NewTableG1(a, gsize, false)` has exactly `2^gsize` entries and, for every
subset `S` of `{0, ..., gsize-1}`, the entry at index `Σ_{b∈S} 2^b` is the sum
of the `a[b]` with `b` in `S`, a missing `a[b]` counting as the identity; entry
`0` is the identity and entry `2^b` is `a[b]`. -/
theorem NewTableG1_subset_sums (a : List G) (gsize : Nat) (hg : gsize ≤ 62) :
    ∃ t, NewTableG1 a gsize false = some t ∧ t.data.length = 2 ^ gsize ∧
      (∀ S : Finset Nat, S ⊆ Finset.range gsize →
        t.data[∑ b in S, 2 ^ b]? = some (∑ b in S, a.getD b 0)) ∧
      t.data[0]? = some 0 ∧ ∀ b, b < gsize → t.data[2 ^ b]? = some (a.getD b 0) := by
  obtain ⟨t, ht, hlen, hget⟩ := NewTableG1_spec a hg
  refine ⟨t, ht, hlen, ?_, ?_, ?_⟩
  · intro S hS
    rw [hget _ (Nat.geomSum_lt (le_refl 2) fun b hb => Finset.mem_range.1 (hS hb)),
      subsetSum_sum_two_pow]
  · rw [hget 0 (by positivity), subsetSum_zero]
  · intro b hb
    rw [hget _ (Nat.pow_lt_pow_right (by norm_num) hb), subsetSum_two_pow]

/-- C7: for a non-empty list of base points, scalars of the same length and two
valid window sizes, that is `1 ≤ gsize ≤ 62`, `ScalarMultG1` returns the same
point for both window sizes. -/
theorem ScalarMultG1_window_invariance (a : List G) (k : List Nat) (gsize1 gsize2 : Nat)
    (ha : a ≠ []) (hk : k.length = a.length) (h1 : 1 ≤ gsize1) (h1u : gsize1 ≤ 62)
    (h2 : 1 ≤ gsize2) (h2u : gsize2 ≤ 62) :
    ∃ r, ScalarMultG1 a k none gsize1 = some r ∧ ScalarMultG1 a k none gsize2 = some r := by
  have hc1 := ntables_cover h1 (length_pos_of_ne_nil ha)
  have hc2 := ntables_cover h2 (length_pos_of_ne_nil ha)
  rw [← hk] at hc1 hc2
  refine ⟨msm k a, ?_, ?_⟩
  · have := ScalarMultG1_eq a k none h1 h1u ha (by rw [hk] at hc1 ⊢; exact hc1.1)
      (by rw [hk] at hc1 ⊢; exact hc1.2)
    simpa [addPrev] using this
  · have := ScalarMultG1_eq a k none h2 h2u ha (by rw [hk] at hc2 ⊢; exact hc2.1)
      (by rw [hk] at hc2 ⊢; exact hc2.2)
    simpa [addPrev] using this

theorem NewTableG1_returns (a : List G) (gsize : Nat) :
    ∃ t, NewTableG1 a gsize false = some t := by
  rcases Nat.lt_or_ge 62 gsize with h | h
  · exact ⟨_, NewTableG1_wide a (by omega)⟩
  · obtain ⟨t, ht, _⟩ := NewTableG1_spec a h
    exact ⟨t, ht⟩

theorem ScalarMultG1_loop_zeros (a : List G) (m gsize : Nat) :
    ∀ n, n * gsize ≤ a.length → n * gsize ≤ m →
      ScalarMultG1.loop a (List.replicate m 0) gsize n = some 0 := by
  intro n
  induction n with
  | zero => intro _ _; rfl
  | succ n ih =>
    intro ha hk
    have hle : n * gsize ≤ (n + 1) * gsize := by rw [Nat.succ_mul]; omega
    obtain ⟨t, ht⟩ := NewTableG1_returns ((a.take ((n + 1) * gsize)).drop (n * gsize)) gsize
    unfold ScalarMultG1.loop
    rw [ih (by omega) (by omega)]
    simp only [Option.some_bind, Nat.cast_add, Nat.cast_one]
    rw [(chunk_cast n gsize).1, (chunk_cast n gsize).2, slice_natCast a hle ha,
      slice_natCast _ hle (by simpa using hk)]
    simp only [Option.some_bind, ht, List.take_replicate, List.drop_replicate,
      MulTableG1_zeros]
    simp [addPrev]

/-- Identity boundary where the slices are in range: for an all-zero scalar
vector that reaches the last chunk, `ScalarMultG1` returns the identity, or
`Q_prev` when one is supplied, for every window size `gsize ≥ 1`. -/
theorem ScalarMultG1_zeros (a : List G) (m : Nat) (Q_prev : Option G) (gsize : Nat)
    (ha : a ≠ []) (hg1 : 1 ≤ gsize) (hm : ((a.length + gsize - 1) / gsize - 1) * gsize ≤ m) :
    ScalarMultG1 a (List.replicate m 0) Q_prev gsize = some (addPrev Q_prev 0) := by
  obtain ⟨q, hq, hq1, hq2⟩ := ntables_bounds hg1 (length_pos_of_ne_nil ha)
  rw [hq, Nat.add_sub_cancel] at hm
  have hc : ((((q + 1 : Nat) : Int) - 1) * (gsize : Int)) = ((q * gsize : Nat) : Int) := by
    push_cast; ring
  have hn : ((((q + 1 : Nat) : Int) - 1)).toNat = q := by
    have : (((q + 1 : Nat) : Int) - 1) = (q : Int) := by push_cast; ring
    rw [this, Int.toNat_ofNat]
  obtain ⟨t, ht⟩ := NewTableG1_returns (a.drop (q * gsize)) gsize
  unfold ScalarMultG1
  rw [if_neg (by omega)]
  simp only [hq]
  rw [hn, hc, ScalarMultG1_loop_zeros a m gsize q (by omega) hm,
    sliceFrom_natCast a (by omega), sliceFrom_natCast _ (by simpa using hm)]
  simp only [Option.some_bind, ht, List.drop_replicate, MulTableG1_zeros]
  simp [addPrev]

/-- Zero-padding in `ScalarMultNoDoubleG1`: scalars shorter than the base points
give the same outcome as the scalars extended by zeros to the length of the
base points. -/
theorem ScalarMultNoDoubleG1_pad (nbitsQ : Nat) (a : List G) (k : List Nat)
    (Q_prev : Option G) (gsize : Nat) (hk : k.length ≤ a.length) :
    ScalarMultNoDoubleG1 nbitsQ a (k ++ List.replicate (a.length - k.length) 0) Q_prev gsize
      = ScalarMultNoDoubleG1 nbitsQ a k Q_prev gsize := by
  rcases Nat.eq_zero_or_pos gsize with h0 | hpos
  · simp [ScalarMultNoDoubleG1, h0]
  · have hM : a.length ≤ (a.length + gsize - 1) / gsize * gsize := by
      rcases Nat.eq_zero_or_pos a.length with hz | hl
      · omega
      · exact (ntables_cover hpos hl).2
    have hpad : (k ++ List.replicate (a.length - k.length) 0) ++
        List.replicate ((((a.length + gsize - 1) / gsize : Nat) : Int) * (gsize : Int)
          - ((k ++ List.replicate (a.length - k.length) 0).length : Int)).toNat 0
        = k ++ List.replicate ((((a.length + gsize - 1) / gsize : Nat) : Int) * (gsize : Int)
          - (k.length : Int)).toNat 0 := by
      rw [List.append_assoc, ← List.replicate_add]
      congr 2
      have e1 : (k ++ List.replicate (a.length - k.length) 0).length = a.length := by
        simp; omega
      rw [e1]
      have e2 : (((a.length + gsize - 1) / gsize : Nat) : Int) * (gsize : Int)
          = (((a.length + gsize - 1) / gsize * gsize : Nat) : Int) := by push_cast; ring
      rw [e2]
      omega
    unfold ScalarMultNoDoubleG1
    rw [if_neg (by omega), if_neg (by omega)]
    simp only [hpad]

/-- C5: for a non-empty list of base points, scalars of the same length, a
window size `gsize ≥ 1` and an accumulator `acc`, the outcome of
`ScalarMultG1(points, scalars, acc, gsize)` is `acc` plus the outcome of
`ScalarMultG1(points, scalars, nil, gsize)`, both calls return when
`gsize ≤ 62`, and `ScalarMultNoDoubleG1` satisfies the same equation whenever it
returns. -/
theorem ScalarMultG1_chaining (nbitsQ : Nat) (a : List G) (k : List Nat) (acc : G)
    (gsize : Nat) (ha : a ≠ []) (hk : k.length = a.length) (hg1 : 1 ≤ gsize) :
    ScalarMultG1 a k (some acc) gsize
        = (ScalarMultG1 a k none gsize).map (fun r => acc + r) ∧
      (gsize ≤ 62 → ∃ r, ScalarMultG1 a k none gsize = some r ∧
        ScalarMultG1 a k (some acc) gsize = some (acc + r)) ∧
      ∀ r, ScalarMultNoDoubleG1 nbitsQ a k none gsize = some r →
        ScalarMultNoDoubleG1 nbitsQ a k (some acc) gsize = some (acc + r) := by
  have hfun : addPrev (some acc) = fun r => acc + r := by
    funext r; simp [addPrev, add_comm]
  have h1 := ScalarMultG1_prev a k (some acc) gsize
  rw [hfun] at h1
  refine ⟨h1, ?_, ?_⟩
  · intro hg
    have hc := ntables_cover hg1 (length_pos_of_ne_nil ha)
    have h := ScalarMultG1_eq a k none hg1 hg ha (by rw [hk]; exact hc.1)
      (by rw [hk]; exact hc.2)
    exact ⟨_, h, by rw [h1, h]; rfl⟩
  · intro r hr
    rw [ScalarMultNoDoubleG1_prev, hr, hfun]
    rfl

/-- C8: for a non-empty list of base points, two scalar lists `k` and `k1` of
the same length as the points and a window size `gsize ≥ 1`, the sum of the
outcomes of `ScalarMultG1` on `k` and on `k1` is the outcome of `ScalarMultG1`
on the elementwise sum of `k` and `k1`; all three calls return when
`gsize ≤ 62`. -/
theorem ScalarMultG1_linear (a : List G) (k k1 : List Nat) (gsize : Nat) (ha : a ≠ [])
    (hk : k.length = a.length) (hk1 : k1.length = a.length) (hg1 : 1 ≤ gsize) :
    ((ScalarMultG1 a k none gsize).bind fun x =>
        (ScalarMultG1 a k1 none gsize).map fun y => x + y)
        = ScalarMultG1 a (List.zipWith (fun x y => x + y) k k1) none gsize ∧
      (gsize ≤ 62 → ∃ x y, ScalarMultG1 a k none gsize = some x ∧
        ScalarMultG1 a k1 none gsize = some y ∧
        ScalarMultG1 a (List.zipWith (fun x y => x + y) k k1) none gsize = some (x + y)) := by
  have hlen : (List.zipWith (fun x y => x + y) k k1).length = a.length := by simp [hk, hk1]
  have hc := ntables_cover hg1 (length_pos_of_ne_nil ha)
  have hsmall : gsize ≤ 62 → ScalarMultG1 a k none gsize = some (msm k a) ∧
      ScalarMultG1 a k1 none gsize = some (msm k1 a) ∧
      ScalarMultG1 a (List.zipWith (fun x y => x + y) k k1) none gsize
        = some (msm k a + msm k1 a) := by
    intro hg
    refine ⟨ScalarMultG1_eq a k none hg1 hg ha (by rw [hk]; exact hc.1) (by rw [hk]; exact hc.2),
      ScalarMultG1_eq a k1 none hg1 hg ha (by rw [hk1]; exact hc.1) (by rw [hk1]; exact hc.2),
      ?_⟩
    rw [ScalarMultG1_eq a _ none hg1 hg ha (by rw [hlen]; exact hc.1)
      (by rw [hlen]; exact hc.2), msm_add k k1 a (by rw [hk, hk1])]
    rfl
  refine ⟨?_, fun hg => ⟨_, _, hsmall hg⟩⟩
  rcases Nat.lt_or_ge 62 gsize with hw | hs
  · obtain ⟨a1, a2⟩ := ScalarMultG1_wide a k none (by omega : 63 ≤ gsize) ha
      (by rw [hk]; exact hc.1) (by rw [hk]; exact hc.2)
    obtain ⟨b1, b2⟩ := ScalarMultG1_wide a k1 none (by omega : 63 ≤ gsize) ha
      (by rw [hk1]; exact hc.1) (by rw [hk1]; exact hc.2)
    obtain ⟨c1, c2⟩ := ScalarMultG1_wide a (List.zipWith (fun x y => x + y) k k1) none
      (by omega : 63 ≤ gsize) ha (by rw [hlen]; exact hc.1) (by rw [hlen]; exact hc.2)
    rw [quietUpTo_add k k1 _ _ (by rw [hk, hk1])] at c1 c2
    by_cases h1 : quietUpTo k gsize ((a.length + gsize - 1) / gsize)
    · by_cases h2 : quietUpTo k1 gsize ((a.length + gsize - 1) / gsize)
      · rw [a1 h1, b1 h2, c1 ⟨h1, h2⟩]
        simp [addPrev]
      · rw [a1 h1, b2 h2, c2 (fun h => h2 h.2)]
        rfl
    · rw [a2 h1, c2 (fun h => h1 h.1)]
      rfl
  · obtain ⟨e1, e2, e3⟩ := hsmall hs
    rw [e1, e2, e3]
    rfl

/-- C10 as amended: for a non-empty list of base points, a window size
`1 ≤ gsize ≤ 62` and scalars that do not go beyond the last chunk,
`ScalarMultG1` returns a point when the scalars reach the last chunk, whatever
their magnitude, and `ScalarMultNoDoubleG1` returns a point when every scalar
has bit length at most `nbitsQ`. -/
theorem strategies_return (nbitsQ : Nat) (a : List G) (k : List Nat) (Q_prev : Option G)
    (gsize : Nat) (hn : 0 < nbitsQ) (ha : a ≠ []) (hg1 : 1 ≤ gsize) (hg : gsize ≤ 62)
    (hk2 : k.length ≤ (a.length + gsize - 1) / gsize * gsize) :
    (((a.length + gsize - 1) / gsize - 1) * gsize ≤ k.length →
        ∃ r, ScalarMultG1 a k Q_prev gsize = some r) ∧
      ((∀ x ∈ k, BitLen x ≤ nbitsQ) →
        ∃ r, ScalarMultNoDoubleG1 nbitsQ a k Q_prev gsize = some r) :=
  ⟨fun hk1 => ⟨_, ScalarMultG1_eq a k Q_prev hg1 hg ha hk1 hk2⟩,
    fun hbits => ⟨_, ScalarMultNoDoubleG1_eq a k Q_prev hn hg1 hg ha hk2 hbits⟩⟩

end Contract

/-! ## The bit-window extractor -/

theorem BitLen_go_zero (fuel : Nat) : BitLen.go fuel 0 = 0 := by
  cases fuel <;> simp [BitLen.go]

theorem BitLen_go_ge (fuel : Nat) : ∀ x, x ≤ fuel → x ≠ 0 →
    1 ≤ BitLen.go fuel x ∧ 2 ^ (BitLen.go fuel x - 1) ≤ x := by
  induction fuel with
  | zero => intro x hx hne; omega
  | succ f ih =>
    intro x hx hne
    unfold BitLen.go
    rw [if_neg hne]
    refine ⟨by omega, ?_⟩
    rw [Nat.add_sub_cancel]
    rcases Nat.eq_zero_or_pos (x / 2) with h0 | hpos
    · rw [h0, BitLen_go_zero]
      simp; omega
    · obtain ⟨h1, h2⟩ := ih (x / 2) (by omega) (by omega)
      have : 2 ^ BitLen.go f (x / 2) = 2 * 2 ^ (BitLen.go f (x / 2) - 1) := by
        rw [← pow_succ']
        congr 1
        omega
      omega

theorem two_pow_le_of_ne_zero {x : Nat} (hx : x ≠ 0) : 1 ≤ BitLen x ∧ 2 ^ (BitLen x - 1) ≤ x :=
  BitLen_go_ge x x le_rfl hx

theorem BitLen_eq_zero_iff (x : Nat) : BitLen x = 0 ↔ x = 0 := by
  constructor
  · intro h
    by_contra hne
    have := (two_pow_le_of_ne_zero hne).1
    omega
  · intro h; rw [h]; rfl

theorem BitLen_le_iff (x n : Nat) : BitLen x ≤ n ↔ x < 2 ^ n := by
  constructor
  · exact lt_two_pow_of_BitLen_le
  · intro h
    rcases Nat.eq_zero_or_pos x with h0 | hpos
    · rw [h0, BitLen_zero]; omega
    · obtain ⟨h1, h2⟩ := two_pow_le_of_ne_zero (by omega : x ≠ 0)
      have h3 : 2 ^ (BitLen x - 1) < 2 ^ n := lt_of_le_of_lt h2 h
      have := (Nat.pow_lt_pow_iff_right (by norm_num : 1 < 2)).1 h3
      omega

theorem getMsb_foldl_eq (k : List Nat) : ∀ m,
    k.foldl (fun msb el => if BitLen el > msb then BitLen el else msb) m
      = max m (k.foldr (fun x r => max (BitLen x) r) 0) := by
  induction k with
  | nil => intro m; simp
  | cons y ys ih =>
    intro m
    simp only [List.foldl_cons, List.foldr_cons, ih]
    split <;> omega

theorem getMsb_attained (k : List Nat) (hk : k ≠ []) : ∃ x ∈ k, BitLen x = getMsb k := by
  have key : ∀ (l : List Nat) (m : Nat),
      l.foldl (fun msb el => if BitLen el > msb then BitLen el else msb) m = m ∨
      ∃ x ∈ l, BitLen x
        = l.foldl (fun msb el => if BitLen el > msb then BitLen el else msb) m := by
    intro l
    induction l with
    | nil => intro m; left; rfl
    | cons y ys ih =>
      intro m
      simp only [List.foldl_cons, List.mem_cons]
      rcases ih (if BitLen y > m then BitLen y else m) with h | ⟨x, hx, hxe⟩
      · rw [h]
        split
        · right; exact ⟨y, Or.inl rfl, rfl⟩
        · left; rfl
      · right; exact ⟨x, Or.inr hx, hxe⟩
  rcases key k 0 with h | h
  · cases k with
    | nil => exact absurd rfl hk
    | cons y ys =>
      refine ⟨y, List.mem_cons_self _ _, ?_⟩
      have h1 : BitLen y ≤ getMsb (y :: ys) := BitLen_le_getMsb (List.mem_cons_self _ _)
      have h2 : getMsb (y :: ys) = 0 := h
      omega
  · exact h

/-- C16: `getMsb(k)` is the maximum of the bit lengths of the elements of `k`
(the bit length of `x` being the least `n` with `x < 2^n`); it is `0` exactly
when `k` is empty or all its elements are zero; every element of `k` is below
`2^getMsb(k)`. -/
theorem getMsb_spec (k : List Nat) :
    getMsb k = k.foldr (fun x r => max (BitLen x) r) 0 ∧
      (∀ x ∈ k, BitLen x ≤ getMsb k) ∧
      (k ≠ [] → ∃ x ∈ k, BitLen x = getMsb k) ∧
      (getMsb k = 0 ↔ k = [] ∨ ∀ x ∈ k, x = 0) ∧
      (∀ x ∈ k, x < 2 ^ getMsb k) ∧
      ∀ x n, BitLen x ≤ n ↔ x < 2 ^ n := by
  refine ⟨?_, fun x hx => BitLen_le_getMsb hx, getMsb_attained k, ?_,
    fun x hx => lt_two_pow_getMsb hx, BitLen_le_iff⟩
  · have := getMsb_foldl_eq k 0
    simpa [getMsb] using this
  · constructor
    · intro h
      right
      intro x hx
      have := BitLen_le_getMsb hx
      exact (BitLen_eq_zero_iff x).1 (by omega)
    · rintro (h | h)
      · rw [h]; rfl
      · exact Nat.le_zero.1 (getMsb_le fun x hx => by rw [h x hx, BitLen_zero])

theorem Bit_packBits (bs : List Nat) : ∀ j, (∀ b ∈ bs, b ≤ 1) →
    Bit (packBits bs) j = bs.getD j 0 := by
  induction bs with
  | nil => intro j _; simp [packBits, Bit]
  | cons b bs ih =>
    intro j h
    have h1 := h b (List.mem_cons_self _ _)
    have h2 : ∀ c ∈ bs, c ≤ 1 := fun c hc => h c (List.mem_cons_of_mem _ hc)
    cases j with
    | zero =>
      simp only [packBits, Bit, pow_zero, Nat.div_one, List.getD_cons_zero]
      omega
    | succ j =>
      have := ih j h2
      simp only [Bit] at this
      simp only [packBits, Bit, List.getD_cons_succ, pow_succ']
      rw [← Nat.div_div_eq_div_mul, show (b + 2 * packBits bs) / 2 = packBits bs by omega]
      exact this

theorem getD_map_Bit (k : List Nat) (i j : Nat) :
    (k.map fun x => Bit x i).getD j 0 = Bit (k.getD j 0) i := by
  simp only [List.getD_eq_getElem?_getD, List.getElem?_map]
  cases k[j]? <;> simp [Bit_zero_left]

/-- C17: for a group `k` of at most 64 scalars, bit `j` of `getBit(k, i)` is
bit `i` of `k[j]` for `j < len(k)`, the bits at positions `≥ len(k)` are zero,
`getBit(k, i) < 2^len(k)`, and `getBit(k, i) = 0` exactly when no scalar has bit
`i` set. -/
theorem getBit_spec (k : List Nat) (i : Nat) (h : k.length ≤ 64) :
    (∀ j, Bit (getBit k i) j = Bit (k.getD j 0) i) ∧
      (∀ j, k.length ≤ j → Bit (getBit k i) j = 0) ∧
      getBit k i < 2 ^ k.length ∧
      (getBit k i = 0 ↔ ∀ x ∈ k, Bit x i = 0) := by
  have hbits : ∀ b ∈ k.map (fun x => Bit x i), b ≤ 1 := by
    intro b hb
    obtain ⟨x, _, rfl⟩ := List.mem_map.1 hb
    exact Bit_le_one x i
  have h1 : ∀ j, Bit (getBit k i) j = Bit (k.getD j 0) i := by
    intro j
    rw [getBit_eq_packBits h, Bit_packBits _ j hbits, getD_map_Bit]
  refine ⟨h1, ?_, getBit_lt h i, ?_⟩
  · intro j hj
    rw [h1, List.getD_eq_default _ _ hj, Bit_zero_left]
  · rw [getBit_eq_zero_iff, List.take_of_length_le h]

/-! ## Empty input -/

section Empty

variable {G : Type} [AddCommMonoid G] [Codec G]

/-- C11: for an empty list of base points, any scalars and any `gsize ≥ 1`,
`ntables` is `0`, the start `(ntables-1)*gsize` of the slice of the final chunk
is negative, the slice fails, and neither `ScalarMultG1` nor
`ScalarMultNoDoubleG1` returns a point. -/
theorem ScalarMult_empty (nbitsQ : Nat) (k : List Nat) (Q_prev : Option G) (gsize : Nat)
    (hg : 1 ≤ gsize) :
    (([] : List G).length + gsize - 1) / gsize = 0 ∧
      (((0 : Nat) : Int) - 1) * (gsize : Int) < 0 ∧
      sliceFrom ([] : List G) ((((0 : Nat) : Int) - 1) * (gsize : Int)) = none ∧
      ScalarMultG1 ([] : List G) k Q_prev gsize = none ∧
      ScalarMultNoDoubleG1 nbitsQ ([] : List G) k Q_prev gsize = none := by
  have h0 : (([] : List G).length + gsize - 1) / gsize = 0 := by
    apply Nat.div_eq_of_lt
    simp; omega
  have hneg : (((0 : Nat) : Int) - 1) * (gsize : Int) < 0 := by
    have : (0 : Int) < gsize := by omega
    simp; omega
  have hs : sliceFrom ([] : List G) ((((0 : Nat) : Int) - 1) * (gsize : Int)) = none := by
    unfold sliceFrom
    rw [if_neg (by omega)]
  refine ⟨h0, hneg, hs, ?_, ?_⟩
  · unfold ScalarMultG1
    rw [if_neg (by omega)]
    simp only [h0, hs]
    simp [ScalarMultG1.loop]
  · unfold ScalarMultNoDoubleG1
    rw [if_neg (by omega)]
    simp only [h0, hs]
    simp [ScalarMultNoDoubleG1.loop]

end Empty

/-! ## One table -/

section OneTable

variable {G : Type} [AddCommMonoid G] [Codec G]

omit [Codec G] in
theorem subsetSum_take (a : List G) : ∀ (g j : Nat), j < 2 ^ g →
    subsetSum a j = subsetSum (a.take g) j := by
  induction a with
  | nil => intro g j _; simp
  | cons p ps ih =>
    intro g j hj
    cases g with
    | zero =>
      have : j = 0 := by simpa using hj
      subst this
      simp [subsetSum_zero]
    | succ g =>
      have h2 : j / 2 < 2 ^ g := by rw [pow_succ] at hj; omega
      simp only [List.take_succ_cons, subsetSum, ih g (j / 2) h2]

omit [AddCommMonoid G] [Codec G] in
theorem TableG1_ext {t t1 : TableG1 G} (h : t.data = t1.data) : t = t1 := by
  cases t; cases t1; simp_all

/-- C20 as amended: for two lists of base points whose first `gsize` elements
coincide, `NewTableG1(a, gsize, false)` and `NewTableG1(a', gsize, false)`
produce the same table, and that table has `2^gsize` entries when
`gsize ≤ 62`. -/
theorem NewTableG1_prefix (a a1 : List G) (gsize : Nat) (h : a.take gsize = a1.take gsize) :
    NewTableG1 a gsize false = NewTableG1 a1 gsize false ∧
      (gsize ≤ 62 → ∃ t, NewTableG1 a gsize false = some t ∧
        NewTableG1 a1 gsize false = some t ∧ t.data.length = 2 ^ gsize) := by
  have hsmall : gsize ≤ 62 → ∃ t, NewTableG1 a gsize false = some t ∧
      NewTableG1 a1 gsize false = some t ∧ t.data.length = 2 ^ gsize := by
    intro hg
    obtain ⟨t, ht, hlen, hget⟩ := NewTableG1_spec a hg
    obtain ⟨t1, ht1, hlen1, hget1⟩ := NewTableG1_spec a1 hg
    have : t1 = t := by
      apply TableG1_ext
      apply List.ext_getElem?
      intro j
      rcases Nat.lt_or_ge j (2 ^ gsize) with hj | hj
      · rw [hget j hj, hget1 j hj, subsetSum_take a gsize j hj, subsetSum_take a1 gsize j hj, h]
      · rw [List.getElem?_eq_none (by omega), List.getElem?_eq_none (by omega)]
    exact ⟨t, ht, by rw [ht1, this], hlen⟩
  refine ⟨?_, hsmall⟩
  rcases Nat.lt_or_ge 62 gsize with hw | hs
  · rw [NewTableG1_wide a (by omega), NewTableG1_wide a1 (by omega)]
  · obtain ⟨t, h1, h2, _⟩ := hsmall hs
    rw [h1, h2]

/-- C13 as amended: for `gsize ≤ 62`, base points `a`, the table `t` built
by `NewTableG1(a, gsize, false)` and at most `gsize` scalars `k`,
`t.MulTableG1(k, Q_prev, gsize)` returns the sum of `k[i]` times `a[i]` over the
positions `i` present in both lists, plus `Q_prev` when one is supplied; for an
all-zero `k` the loop bound `msb` is `0` and the result is the identity, or
`Q_prev`. -/
theorem MulTableG1_msm (a : List G) (k : List Nat) (gsize : Nat) (hg : gsize ≤ 62)
    (hk : k.length ≤ gsize) :
    ∃ t, NewTableG1 a gsize false = some t ∧
      MulTableG1 t k none gsize = some (msm k a) ∧
      (∀ Q_prev, MulTableG1 t k (some Q_prev) gsize = some (msm k a + Q_prev)) ∧
      ((∀ x ∈ k, x = 0) →
        getMsb (k ++ List.replicate (gsize - k.length) 0) = 0 ∧
        MulTableG1 t k none gsize = some 0 ∧
        ∀ Q_prev, MulTableG1 t k (some Q_prev) gsize = some Q_prev) := by
  obtain ⟨t, ht, _, hget⟩ := NewTableG1_spec a hg
  have e1 := MulTableG1_eq (by omega : gsize ≤ 64) hget k hk none
  have e2 := fun q => MulTableG1_eq (by omega : gsize ≤ 64) hget k hk (some q)
  refine ⟨t, ht, e1, e2, ?_⟩
  intro hz
  have hm : msm k a = 0 := msm_eq_zero_of_scalars k a hz
  refine ⟨?_, by rw [e1, hm]; rfl, fun q => by rw [e2 q, hm]; simp [addPrev]⟩
  apply Nat.le_zero.1
  apply getMsb_le
  intro x hx
  rcases List.mem_append.1 hx with h | h
  · rw [hz x h, BitLen_zero]
  · rw [(List.mem_replicate.1 h).2, BitLen_zero]

end OneTable

/-! ## Serialization of a table -/

theorem foldl_append_eq {α β : Type} (f : α → List β) (l : List α) : ∀ init : List β,
    l.foldl (fun info el => info ++ f el) init = init ++ (l.map f).flatten := by
  induction l with
  | nil => intro init; simp
  | cons x xs ih => intro init; simp [ih, List.append_assoc]

theorem flatten_length_of_stride {β : Type} (L : List (List β)) (stride : Nat)
    (h : ∀ e ∈ L, e.length = stride) : L.flatten.length = stride * L.length := by
  induction L with
  | nil => simp
  | cons x xs ih =>
    simp only [List.flatten_cons, List.length_append, List.length_cons,
      h x (List.mem_cons_self _ _), ih (fun e he => h e (List.mem_cons_of_mem _ he))]
    ring

theorem flatten_window_of_stride {β : Type} (L : List (List β)) (stride : Nat)
    (h : ∀ e ∈ L, e.length = stride) : ∀ (i : Nat) (e : List β), L[i]? = some e →
      (L.flatten.take ((i + 1) * stride)).drop (i * stride) = e := by
  induction L with
  | nil => intro i e he; simp at he
  | cons x xs ih =>
    intro i e he
    have hx : x.length = stride := h x (List.mem_cons_self _ _)
    cases i with
    | zero =>
      have : x = e := by simpa using he
      subst this
      simp [List.take_append_eq_append_take, hx]
    | succ i =>
      have hi := ih (fun e he => h e (List.mem_cons_of_mem _ he)) i e (by simpa using he)
      have e1 : (i + 1 + 1) * stride - x.length = (i + 1) * stride := by
        rw [hx, Nat.succ_mul (i + 1)]; omega
      have e2 : (i + 1) * stride - x.length = i * stride := by
        rw [hx, Nat.succ_mul]; omega
      have e3 : x.length ≤ (i + 1) * stride := by rw [hx, Nat.succ_mul]; omega
      have e4 : x.length ≤ (i + 1 + 1) * stride := by
        rw [hx, Nat.succ_mul (i + 1), Nat.succ_mul]; omega
      rw [List.flatten_cons, List.take_append_eq_append_take, List.take_of_length_le e4,
        List.drop_append_eq_append_drop, List.drop_of_length_le e3, e1, e2, List.nil_append]
      exact hi

section Marshal

variable {G : Type} [AddCommMonoid G] [Codec G]

omit [AddCommMonoid G] in
theorem Marshal_eq_flatten (t : TableG1 G) :
    t.Marshal = (t.data.map Codec.Marshal).flatten := by
  unfold TableG1.Marshal
  rw [foldl_append_eq]
  simp

theorem NewTableG1_length (a : List G) {gsize : Nat} (hg : gsize ≤ 62) (toaffine : Bool) :
    ∃ t, NewTableG1 a gsize toaffine = some t ∧ t.data.length = 2 ^ gsize := by
  have hpos : 0 < 2 ^ gsize := by positivity
  obtain ⟨st, hst, hlen, _⟩ :=
    NewTableG1_loop_inv (a ++ List.replicate (gsize - a.length) 0) gsize
      (by simp; omega) (2 ^ gsize - 1) (by omega)
  have hl : st.table.length = 2 ^ gsize := by rw [hlen]; exact Nat.sub_add_cancel hpos
  cases toaffine with
  | false => exact ⟨⟨st.table⟩, by simp [NewTableG1, tableIters_of_le hg, hst], hl⟩
  | true =>
    exact ⟨⟨st.table.map fun p => Codec.Unmarshal p (Codec.Marshal p)⟩,
      by simp [NewTableG1, tableIters_of_le hg, hst], by simpa using hl⟩

/-- C12 as amended: for a table built by `NewTableG1` with window size
`gsize ≤ 62`, when every point encoding has the length `stride`,
`TableG1.Marshal` returns the concatenation of the encodings of the entries in
ascending index order, its length is `stride * 2^gsize`, and the bytes
`[i*stride, (i+1)*stride)` are the encoding of entry `i`. -/
theorem Marshal_layout (a : List G) (gsize : Nat) (toaffine : Bool) (stride : Nat)
    (hs : ∀ p : G, (Codec.Marshal p).length = stride) (hg : gsize ≤ 62) :
    ∃ t, NewTableG1 a gsize toaffine = some t ∧
      t.Marshal = (t.data.map Codec.Marshal).flatten ∧
      t.Marshal.length = stride * 2 ^ gsize ∧
      ∀ i, i < 2 ^ gsize → ∃ e, t.data[i]? = some e ∧
        (t.Marshal.take ((i + 1) * stride)).drop (i * stride) = Codec.Marshal e := by
  obtain ⟨t, ht, hlen⟩ := NewTableG1_length a hg toaffine
  have hall : ∀ e ∈ t.data.map Codec.Marshal, e.length = stride := by
    intro e he
    obtain ⟨p, _, rfl⟩ := List.mem_map.1 he
    exact hs p
  refine ⟨t, ht, Marshal_eq_flatten t, ?_, ?_⟩
  · rw [Marshal_eq_flatten, flatten_length_of_stride _ stride hall, List.length_map, hlen]
  · intro i hi
    have hi1 : i < t.data.length := by omega
    refine ⟨t.data[i], List.getElem?_eq_getElem hi1, ?_⟩
    rw [Marshal_eq_flatten]
    apply flatten_window_of_stride _ stride hall
    rw [List.getElem?_map, List.getElem?_eq_getElem hi1]
    rfl

end Marshal

/-! ## Pre-supplied tables -/

section Tables

variable {G : Type} [AddCommMonoid G] [Codec G]

theorem ScalarMultNoDoubleG1_loop_tables (a : List G) (k_ext : List Nat) (gsize : Nat)
    (Q0 : List G) (ts : List (TableG1 G)) :
    ∀ n, n * gsize ≤ a.length → n * gsize ≤ k_ext.length →
      (∀ j, j < n →
        ts[j]? = NewTableG1 ((a.take ((j + 1) * gsize)).drop (j * gsize)) gsize false) →
      ScalarMultNoDoubleG1.loop a k_ext gsize Q0 n
        = MulTableNoDoubleG1.loop ts k_ext gsize Q0 n := by
  intro n
  induction n with
  | zero => intro _ _ _; rfl
  | succ n ih =>
    intro ha hk hts
    have hle : n * gsize ≤ (n + 1) * gsize := by rw [Nat.succ_mul]; omega
    have ha1 : n * gsize ≤ a.length := by rw [Nat.succ_mul] at ha; omega
    have hk1 : n * gsize ≤ k_ext.length := by rw [Nat.succ_mul] at hk; omega
    unfold ScalarMultNoDoubleG1.loop MulTableNoDoubleG1.loop
    rw [ih ha1 hk1 (fun j hj => hts j (by omega))]
    congr 1
    funext Q
    rw [(chunk_cast n gsize).1, (chunk_cast n gsize).2, slice_natCast a hle ha,
      slice_natCast k_ext hle hk]
    simp only [Option.some_bind]
    rw [hts n (by omega)]

/-- C15: for a non-empty list of base points `a`, `gsize ≥ 1` and scalars `k`
that do not go beyond the last chunk, the tables of the chunks of `a` exist, and
for the list `ts` of these tables `ScalarMultNoDoubleG1(a, k, Q_prev, gsize)` and
`MulTableNoDoubleG1(ts, k, Q_prev, gsize)` have the same outcome: the same point
or a failure in the same cases. -/
theorem NoDouble_tables_agree (nbitsQ : Nat) (a : List G) (k : List Nat) (Q_prev : Option G)
    (gsize : Nat) (ha : a ≠ []) (hg1 : 1 ≤ gsize)
    (hk : k.length ≤ (a.length + gsize - 1) / gsize * gsize) :
    (∃ ts : List (TableG1 G), ts.length = (a.length + gsize - 1) / gsize ∧
      ∀ j, j < (a.length + gsize - 1) / gsize →
        ts[j]? = NewTableG1 ((a.take ((j + 1) * gsize)).drop (j * gsize)) gsize false) ∧
    ∀ ts : List (TableG1 G), ts.length = (a.length + gsize - 1) / gsize →
      (∀ j, j < (a.length + gsize - 1) / gsize →
        ts[j]? = NewTableG1 ((a.take ((j + 1) * gsize)).drop (j * gsize)) gsize false) →
      ScalarMultNoDoubleG1 nbitsQ a k Q_prev gsize
        = MulTableNoDoubleG1 nbitsQ ts k Q_prev gsize := by
  constructor
  · refine ⟨(List.range ((a.length + gsize - 1) / gsize)).map fun j =>
      (NewTableG1 ((a.take ((j + 1) * gsize)).drop (j * gsize)) gsize false).getD ⟨[]⟩,
      by simp, ?_⟩
    intro j hj
    obtain ⟨t, ht⟩ := NewTableG1_returns ((a.take ((j + 1) * gsize)).drop (j * gsize)) gsize
    simp [List.getElem?_map, List.getElem?_range hj, ht]
  · intro ts hlen hts
    obtain ⟨q, hq, hq1, hq2⟩ := ntables_bounds hg1 (length_pos_of_ne_nil ha)
    rw [hq] at hk hlen hts
    have hk2 : k.length ≤ q * gsize + gsize := by rw [Nat.succ_mul] at hk; exact hk
    have hc : ((((q + 1 : Nat) : Int) - 1) * (gsize : Int)) = ((q * gsize : Nat) : Int) := by
      push_cast; ring
    have hn1 : ((((q + 1 : Nat) : Int) - 1)).toNat = q := by
      have : (((q + 1 : Nat) : Int) - 1) = (q : Int) := by push_cast; ring
      rw [this, Int.toNat_ofNat]
    have hpad : ((((q + 1 : Nat) : Int) * (gsize : Int)) - (k.length : Int)).toNat
        = (q + 1) * gsize - k.length := by
      have : (((q + 1 : Nat) : Int) * (gsize : Int)) - (k.length : Int)
          = (((q + 1) * gsize - k.length : Nat) : Int) := by
        rw [Nat.cast_sub hk]; push_cast; ring
      rw [this, Int.toNat_ofNat]
    obtain ⟨k_ext, hke⟩ :
        ∃ k_ext, k_ext = k ++ List.replicate ((q + 1) * gsize - k.length) 0 := ⟨_, rfl⟩
    have hklen : k_ext.length = (q + 1) * gsize := by rw [hke]; simp; omega
    have hle : q * gsize ≤ (q + 1) * gsize := by rw [Nat.succ_mul]; omega
    have hlast : a.drop (q * gsize) = (a.take ((q + 1) * gsize)).drop (q * gsize) := by
      rw [List.take_of_length_le (by rw [Nat.succ_mul]; omega)]
    have hklast : k_ext.drop (q * gsize) = (k_ext.take ((q + 1) * gsize)).drop (q * gsize) := by
      rw [List.take_of_length_le (by omega)]
    unfold ScalarMultNoDoubleG1 MulTableNoDoubleG1
    rw [if_neg (by omega)]
    simp only [hq, hlen]
    rw [hn1, hc, hpad, ← hke, MulTableNoDoubleG1.loop,
      ScalarMultNoDoubleG1_loop_tables a k_ext gsize _ ts q (by omega) (by omega)
        (fun j hj => hts j (by omega)),
      sliceFrom_natCast a (by omega), sliceFrom_natCast k_ext (by omega)]
    rw [(chunk_cast q gsize).1, (chunk_cast q gsize).2, slice_natCast k_ext hle (by omega),
      hts q (by omega), ← hlast, ← hklast]
    simp only [Option.some_bind, Option.bind_assoc]

omit [Codec G] in
theorem msm_eq_sum_range (k : List Nat) : ∀ (a : List G) (n : Nat), k.length ≤ n →
    msm k a = ∑ i in Finset.range n, k.getD i 0 • a.getD i 0 := by
  induction k with
  | nil => intro a n _; simp
  | cons x xs ih =>
    intro a n hn
    obtain ⟨m, rfl⟩ : ∃ m, n = m + 1 := ⟨n - 1, by simp at hn; omega⟩
    cases a with
    | nil => simp
    | cons p ps =>
      rw [msm_cons, ih ps m (by simpa using hn), Finset.sum_range_succ']
      simp [add_comm]

theorem chunkOf_getD (k : List Nat) (g j i : Nat) (hi : i < g) :
    (chunkOf k g j).getD i 0 = k.getD (j * g + i) 0 := by
  unfold chunkOf
  simp only [List.getD_eq_getElem?_getD, List.getElem?_drop]
  rw [List.getElem?_take_of_lt (by rw [Nat.succ_mul]; omega)]

theorem chunkOf_length_le (k : List Nat) (g j : Nat) : (chunkOf k g j).length ≤ g := by
  unfold chunkOf
  simp only [List.length_drop, List.length_take]
  rw [Nat.succ_mul]
  omega

theorem mem_of_mem_chunkOf {k : List Nat} {g j x : Nat} (h : x ∈ chunkOf k g j) : x ∈ k :=
  List.mem_of_mem_take (List.mem_of_mem_drop h)

theorem getD_append_zeros (k : List Nat) (n i : Nat) :
    (k ++ List.replicate n 0).getD i 0 = k.getD i 0 := by
  simp only [List.getD_eq_getElem?_getD]
  rcases Nat.lt_or_ge i k.length with h | h
  · rw [List.getElem?_append_left h]
  · rw [List.getElem?_append_right h, List.getElem?_replicate, List.getElem?_eq_none h]
    split <;> rfl

theorem tables_get {Ps : List (List G)} {ts : List (TableG1 G)} {gsize : Nat}
    (hts : ts.map some = Ps.map fun P => NewTableG1 P gsize false) (j : Nat)
    (hj : j < ts.length) :
    ∃ t, ts[j]? = some t ∧ NewTableG1 (Ps.getD j []) gsize false = some t := by
  have hlen : ts.length = Ps.length := by simpa using congrArg List.length hts
  have h1 := congrArg (fun l => l[j]?) hts
  simp only [List.getElem?_map, List.getElem?_eq_getElem hj,
    List.getElem?_eq_getElem (by omega : j < Ps.length), Option.map_some'] at h1
  refine ⟨ts[j], List.getElem?_eq_getElem hj, ?_⟩
  rw [List.getD_eq_getElem?_getD, List.getElem?_eq_getElem (by omega : j < Ps.length)]
  exact (Option.some.inj h1).symm

theorem MulTableNoDoubleG1_loop_eq {Ps : List (List G)} {ts : List (TableG1 G)}
    (k_ext : List Nat) {gsize nbitsQ : Nat} (hg : gsize ≤ 62)
    (hts : ts.map some = Ps.map fun P => NewTableG1 P gsize false)
    (hbits : ∀ x ∈ k_ext, BitLen x ≤ nbitsQ) :
    ∀ n, n ≤ ts.length → n * gsize ≤ k_ext.length →
      ∃ Q, MulTableNoDoubleG1.loop ts k_ext gsize (List.replicate nbitsQ 0) n = some Q ∧
        Q.length = nbitsQ ∧
        ∀ b, Q.getD b 0 = ∑ j in Finset.range n,
          msm ((chunkOf k_ext gsize j).map fun x => Bit x b) (Ps.getD j []) := by
  intro n
  induction n with
  | zero =>
    intro _ _
    refine ⟨List.replicate nbitsQ 0, rfl, by simp, ?_⟩
    intro b
    simp only [List.getD_eq_getElem?_getD, List.getElem?_replicate, Finset.range_zero,
      Finset.sum_empty]
    split <;> rfl
  | succ n ih =>
    intro hn hk
    have hle : n * gsize ≤ (n + 1) * gsize := by rw [Nat.succ_mul]; omega
    obtain ⟨Q, hQ, hQlen, hQget⟩ := ih (by omega) (by rw [Nat.succ_mul] at hk; omega)
    obtain ⟨t, htj, htab⟩ := tables_get hts n (by omega)
    obtain ⟨t1, ht1, _, hget⟩ := NewTableG1_spec (Ps.getD n []) hg
    have ht : t1 = t := Option.some.inj (ht1.symm.trans htab)
    subst ht
    have hkl : (chunkOf k_ext gsize n).length = gsize := by
      unfold chunkOf
      simp only [List.length_drop, List.length_take]
      rw [Nat.succ_mul] at hk ⊢
      omega
    have hmsb : getMsb (chunkOf k_ext gsize n) ≤ Q.length := by
      rw [hQlen]
      exact getMsb_le fun x hx => hbits x (List.mem_of_mem_take (List.mem_of_mem_drop hx))
    obtain ⟨Q1, h1, h2, h3⟩ := addBits_getMsb (A := Ps.getD n [])
      (by omega) (by rw [hkl]; exact hget) Q hmsb
    refine ⟨Q1, ?_, by omega, ?_⟩
    · unfold MulTableNoDoubleG1.loop
      rw [hQ, Option.some_bind, (chunk_cast n gsize).1, (chunk_cast n gsize).2,
        slice_natCast k_ext hle hk, Option.some_bind, htj, Option.some_bind]
      exact h1
    · intro b
      rw [h3 b, hQget b, Finset.sum_range_succ]

/-- C14 as amended: for `gsize ≤ 62`, lists of base points `P[j]`, the tables
`ts[j]` built from them by `NewTableG1`, and scalars `k` no longer than
`len(ts) * gsize` with bit lengths at most `nbitsQ`, `MulTableNoDoubleG1`
returns the sum over `j` and `i < gsize` of `k[j*gsize + i]` times `P[j][i]`
(missing scalars counting as zero and missing points as the identity), plus
`Q_prev` when one is supplied; before consolidation adder `b` holds the sum over
the tables of the entry selected by the window of bit `b`, and the consolidation
returns the sum over `b` of `2^b` times adder `b`. -/
theorem MulTableNoDoubleG1_msm (nbitsQ : Nat) (Ps : List (List G)) (k : List Nat)
    (Q_prev : Option G) (gsize : Nat) (hn : 0 < nbitsQ) (hg : gsize ≤ 62)
    (hk : k.length ≤ Ps.length * gsize) (hbits : ∀ x ∈ k, BitLen x ≤ nbitsQ) :
    (∃ ts : List (TableG1 G), ts.map some = Ps.map fun P => NewTableG1 P gsize false) ∧
    ∀ ts : List (TableG1 G), (ts.map some = Ps.map fun P => NewTableG1 P gsize false) →
      MulTableNoDoubleG1 nbitsQ ts k Q_prev gsize
        = some (addPrev Q_prev (∑ j in Finset.range Ps.length, ∑ i in Finset.range gsize,
            k.getD (j * gsize + i) 0 • (Ps.getD j []).getD i 0)) ∧
      ∃ Q, MulTableNoDoubleG1.loop ts (k ++ List.replicate (ts.length * gsize - k.length) 0)
          gsize (List.replicate nbitsQ 0) ts.length = some Q ∧
        Q.length = nbitsQ ∧
        (∀ b, b < nbitsQ → Q.getD b 0 = ∑ j in Finset.range ts.length,
          (ts.getD j ⟨[]⟩).data.getD
            (getBit (chunkOf (k ++ List.replicate (ts.length * gsize - k.length) 0) gsize j) b)
            0) ∧
        consolidate Q nbitsQ Q_prev
          = some (addPrev Q_prev (∑ b in Finset.range nbitsQ, 2 ^ b • Q.getD b 0)) := by
  constructor
  · refine ⟨Ps.map fun P => (NewTableG1 P gsize false).getD ⟨[]⟩, ?_⟩
    rw [List.map_map]
    apply List.map_congr_left
    intro P _
    obtain ⟨t, ht⟩ := NewTableG1_returns P gsize
    simp [ht]
  · intro ts hts
    have hlen : ts.length = Ps.length := by simpa using congrArg List.length hts
    rw [← hlen] at hk
    obtain ⟨k_ext, hke⟩ :
        ∃ k_ext, k_ext = k ++ List.replicate (ts.length * gsize - k.length) 0 := ⟨_, rfl⟩
    have hklen : k_ext.length = ts.length * gsize := by rw [hke]; simp; omega
    have hbits1 : ∀ x ∈ k_ext, BitLen x ≤ nbitsQ := by
      intro x hx
      rw [hke] at hx
      rcases List.mem_append.1 hx with h | h
      · exact hbits x h
      · rw [(List.mem_replicate.1 h).2, BitLen_zero]; omega
    obtain ⟨Q, hQ, hQlen, hQget⟩ :=
      MulTableNoDoubleG1_loop_eq k_ext hg hts hbits1 ts.length le_rfl (by omega)
    have hcons := consolidate_eq Q hn hQlen Q_prev
    have hwin : ∀ b j, j < ts.length →
        (ts.getD j ⟨[]⟩).data.getD (getBit (chunkOf k_ext gsize j) b) 0
          = msm ((chunkOf k_ext gsize j).map fun x => Bit x b) (Ps.getD j []) := by
      intro b j hj
      obtain ⟨t, htj, htab⟩ := tables_get hts j hj
      obtain ⟨t1, ht1, _, hget⟩ := NewTableG1_spec (Ps.getD j []) hg
      have ht : t1 = t := Option.some.inj (ht1.symm.trans htab)
      subst ht
      have hkl : (chunkOf k_ext gsize j).length = gsize := by
        unfold chunkOf
        simp only [List.length_drop, List.length_take]
        have : (j + 1) * gsize ≤ ts.length * gsize := Nat.mul_le_mul_right _ (by omega)
        rw [Nat.succ_mul] at this ⊢
        omega
      have hw : t1.data[getBit (chunkOf k_ext gsize j) b]?
          = some (msm ((chunkOf k_ext gsize j).map fun x => Bit x b) (Ps.getD j [])) :=
        table_window (by omega) (by rw [hkl]; exact hget) b
      have e : ts.getD j ⟨[]⟩ = t1 := by
        rw [List.getD_eq_getElem?_getD, htj]; rfl
      rw [e, List.getD_eq_getElem?_getD, hw]
      rfl
    have hchunk : ∀ j, msm (chunkOf k_ext gsize j) (Ps.getD j [])
        = ∑ i in Finset.range gsize, k.getD (j * gsize + i) 0 • (Ps.getD j []).getD i 0 := by
      intro j
      rw [msm_eq_sum_range _ _ gsize (chunkOf_length_le _ _ _)]
      apply Finset.sum_congr rfl
      intro i hi
      rw [chunkOf_getD _ _ _ _ (Finset.mem_range.1 hi), hke, getD_append_zeros]
    have hsum : (∑ b in Finset.range nbitsQ, 2 ^ b • Q.getD b 0)
        = ∑ j in Finset.range Ps.length, ∑ i in Finset.range gsize,
            k.getD (j * gsize + i) 0 • (Ps.getD j []).getD i 0 := by
      simp only [hQget, Finset.smul_sum]
      rw [Finset.sum_comm, hlen]
      apply Finset.sum_congr rfl
      intro j _
      rw [sum_two_pow_msm_Bit, map_mod_of_lt (k := chunkOf k_ext gsize j) (n := nbitsQ)
        (fun x hx => lt_two_pow_of_BitLen_le (hbits1 x (mem_of_mem_chunkOf hx))), hchunk]
    refine ⟨?_, Q, by rw [← hke]; exact hQ, hQlen, ?_, hcons⟩
    · unfold MulTableNoDoubleG1
      simp only []
      rw [← hke, hQ, Option.some_bind, hcons, hsum]
    · intro b _
      rw [← hke, hQget b]
      apply Finset.sum_congr rfl
      intro j hj
      rw [hwin b j (Finset.mem_range.1 hj)]

end Tables

/-! ## Failure of the no-doubling strategy -/

section Failure

variable {G : Type} [AddCommMonoid G] [Codec G]

omit [AddCommMonoid G] [Codec G] in
theorem addBits_length [Add G] (t : TableG1 G) (ks : List Nat) : ∀ (n : Nat) (Q Q1 : List G),
    addBits t ks n Q = some Q1 → Q1.length = Q.length := by
  intro n
  induction n with
  | zero => intro Q Q1 h; simp only [addBits, Option.some.injEq] at h; rw [← h]
  | succ n ih =>
    intro Q Q1 h
    unfold addBits at h
    split at h
    · obtain ⟨q, _, h1⟩ := Option.bind_eq_some.1 h
      obtain ⟨e, _, h2⟩ := Option.bind_eq_some.1 h1
      have := ih _ _ h2
      simpa using this
    · exact ih _ _ h

omit [AddCommMonoid G] [Codec G] in
theorem addBits_index_lt [Add G] (t : TableG1 G) (ks : List Nat) : ∀ (n : Nat) (Q Q1 : List G),
    addBits t ks n Q = some Q1 → ∀ i, i < n → getBit ks i ≠ 0 → i < Q.length := by
  intro n
  induction n with
  | zero => intro Q Q1 _ i hi; omega
  | succ n ih =>
    intro Q Q1 h i hi hb
    unfold addBits at h
    split at h
    · obtain ⟨q, hq, h1⟩ := Option.bind_eq_some.1 h
      obtain ⟨e, _, h2⟩ := Option.bind_eq_some.1 h1
      have hn : n < Q.length := by
        by_contra hge
        rw [List.getElem?_eq_none (by omega)] at hq
        simp at hq
      rcases Nat.lt_or_ge i n with hlt | hge
      · have := ih _ _ h2 i hlt hb
        simpa using this
      · have : i = n := by omega
        rw [this]; exact hn
    · rename_i hz
      rcases Nat.lt_or_ge i n with hlt | hge
      · exact ih _ _ h i hlt hb
      · have : i = n := by omega
        rw [this] at hb
        exact absurd hb hz

theorem Bit_top {x : Nat} (hx : x ≠ 0) : Bit x (BitLen x - 1) = 1 := by
  obtain ⟨h1, h2⟩ := two_pow_le_of_ne_zero hx
  have h3 := lt_two_pow_BitLen x
  have h4 : 2 ^ BitLen x = 2 ^ (BitLen x - 1) * 2 := by
    rw [← pow_succ]
    congr 1
    omega
  have : x / 2 ^ (BitLen x - 1) = 1 := by
    apply Nat.div_eq_of_lt_le
    · simpa using h2
    · omega
  simp [Bit, this]

/-- The window of the top bit position of a group of at most 64 scalars is not
zero. -/
theorem getBit_top_ne_zero {ks : List Nat} (hks : ks.length ≤ 64) (hm : 0 < getMsb ks) :
    getBit ks (getMsb ks - 1) ≠ 0 := by
  have hne : ks ≠ [] := by
    intro h
    rw [h] at hm
    exact absurd hm (by decide)
  obtain ⟨x, hx, hxe⟩ := getMsb_attained ks hne
  have hx0 : x ≠ 0 := by
    intro h
    rw [h, BitLen_zero] at hxe
    omega
  intro h0
  have := (getBit_eq_zero_iff ks _).1 h0 x (by rw [List.take_of_length_le hks]; exact hx)
  rw [← hxe, Bit_top hx0] at this
  exact absurd this (by decide)

omit [AddCommMonoid G] [Codec G] in
theorem getMsb_le_of_addBits [Add G] {t : TableG1 G} {ks : List Nat} {Q Q1 : List G}
    (hks : ks.length ≤ 64) (h : addBits t ks (getMsb ks) Q = some Q1) :
    getMsb ks ≤ Q.length := by
  rcases Nat.eq_zero_or_pos (getMsb ks) with h0 | hpos
  · omega
  · have := addBits_index_lt t ks _ Q Q1 h (getMsb ks - 1) (by omega)
      (getBit_top_ne_zero hks hpos)
    omega

theorem mem_take_succ_chunk {k : List Nat} {g n x : Nat} (hx : x ∈ k.take ((n + 1) * g)) :
    x ∈ k.take (n * g) ∨ x ∈ chunkOf k g n := by
  have hle : n * g ≤ (n + 1) * g := by rw [Nat.succ_mul]; omega
  rw [← List.take_append_drop (n * g) (k.take ((n + 1) * g)), List.take_take,
    min_eq_left hle] at hx
  exact List.mem_append.1 hx

theorem ScalarMultNoDoubleG1_loop_some (a : List G) (k_ext : List Nat) {gsize : Nat}
    (hg : gsize ≤ 64) (Q0 : List G) : ∀ (n : Nat) (Q : List G),
    n * gsize ≤ a.length → n * gsize ≤ k_ext.length →
      ScalarMultNoDoubleG1.loop a k_ext gsize Q0 n = some Q →
      Q.length = Q0.length ∧ ∀ x ∈ k_ext.take (n * gsize), BitLen x ≤ Q0.length := by
  intro n
  induction n with
  | zero =>
    intro Q _ _ h
    simp only [ScalarMultNoDoubleG1.loop, Option.some.injEq] at h
    rw [← h]
    exact ⟨rfl, by simp⟩
  | succ n ih =>
    intro Q1 ha hk h
    have hle : n * gsize ≤ (n + 1) * gsize := by rw [Nat.succ_mul]; omega
    unfold ScalarMultNoDoubleG1.loop at h
    obtain ⟨Q, hQ, h1⟩ := Option.bind_eq_some.1 h
    rw [(chunk_cast n gsize).1, (chunk_cast n gsize).2, slice_natCast a hle ha,
      slice_natCast k_ext hle hk, Option.some_bind] at h1
    obtain ⟨t, _, h2⟩ := Option.bind_eq_some.1 h1
    rw [Option.some_bind] at h2
    obtain ⟨e1, e2⟩ := ih Q (by rw [Nat.succ_mul] at ha; omega)
      (by rw [Nat.succ_mul] at hk; omega) hQ
    have hkl : ((k_ext.take ((n + 1) * gsize)).drop (n * gsize)).length ≤ 64 := by
      simp only [List.length_drop, List.length_take]
      rw [Nat.succ_mul]
      omega
    have hmsb := getMsb_le_of_addBits hkl h2
    refine ⟨by rw [addBits_length _ _ _ _ _ h2, e1], ?_⟩
    intro x hx
    rcases mem_take_succ_chunk hx with h3 | h3
    · exact e2 x h3
    · have := BitLen_le_getMsb h3
      unfold chunkOf at this
      omega

/-- When `ScalarMultNoDoubleG1` returns, no scalar is longer than `nbitsQ`
bits. -/
theorem BitLen_le_of_ScalarMultNoDoubleG1 (a : List G) (k : List Nat) (Q_prev : Option G)
    {gsize nbitsQ : Nat} (hg1 : 1 ≤ gsize) (hg : gsize ≤ 62) (ha : a ≠ [])
    (hk2 : k.length ≤ (a.length + gsize - 1) / gsize * gsize) {r : G}
    (h : ScalarMultNoDoubleG1 nbitsQ a k Q_prev gsize = some r) :
    ∀ x ∈ k, BitLen x ≤ nbitsQ := by
  obtain ⟨q, hq, hq1, hq2⟩ := ntables_bounds hg1 (length_pos_of_ne_nil ha)
  rw [hq] at hk2
  rw [Nat.succ_mul] at hk2
  have hc : ((((q + 1 : Nat) : Int) - 1) * (gsize : Int)) = ((q * gsize : Nat) : Int) := by
    push_cast; ring
  have hn1 : ((((q + 1 : Nat) : Int) - 1)).toNat = q := by
    have : (((q + 1 : Nat) : Int) - 1) = (q : Int) := by push_cast; ring
    rw [this, Int.toNat_ofNat]
  have hpad : ((((q + 1 : Nat) : Int) * (gsize : Int)) - (k.length : Int)).toNat
      = q * gsize + gsize - k.length := by
    have : (((q + 1 : Nat) : Int) * (gsize : Int)) - (k.length : Int)
        = ((q * gsize + gsize - k.length : Nat) : Int) := by
      rw [Nat.cast_sub hk2]; push_cast; ring
    rw [this, Int.toNat_ofNat]
  obtain ⟨k_ext, hke⟩ : ∃ k_ext, k_ext = k ++ List.replicate (q * gsize + gsize - k.length) 0 :=
    ⟨_, rfl⟩
  have hklen : k_ext.length = q * gsize + gsize := by rw [hke]; simp; omega
  unfold ScalarMultNoDoubleG1 at h
  rw [if_neg (by omega)] at h
  simp only [hq] at h
  rw [hn1, hc, hpad, ← hke, sliceFrom_natCast a (by omega),
    sliceFrom_natCast k_ext (by omega)] at h
  obtain ⟨Q, hQ, h1⟩ := Option.bind_eq_some.1 h
  rw [Option.some_bind] at h1
  obtain ⟨t, _, h2⟩ := Option.bind_eq_some.1 h1
  rw [Option.some_bind] at h2
  obtain ⟨Q1, h3, _⟩ := Option.bind_eq_some.1 h2
  obtain ⟨e1, e2⟩ := ScalarMultNoDoubleG1_loop_some a k_ext (by omega) _ q Q (by omega)
    (by omega) hQ
  have hmsb := getMsb_le_of_addBits (by simp [hklen]; omega) h3
  rw [e1, List.length_replicate] at hmsb
  rw [List.length_replicate] at e2
  intro x hx
  have hx1 : x ∈ k_ext := by rw [hke]; exact List.mem_append_left _ hx
  rw [← List.take_append_drop (q * gsize) k_ext] at hx1
  rcases List.mem_append.1 hx1 with h4 | h4
  · exact e2 x h4
  · exact le_trans (BitLen_le_getMsb h4) hmsb

theorem exists_chunk_of_mem {l : List Nat} {g x : Nat} (hg : 1 ≤ g) (hx : x ∈ l) :
    ∃ j, x ∈ chunkOf l g j := by
  obtain ⟨p, hp, hpe⟩ := List.getElem_of_mem hx
  refine ⟨p / g, ?_⟩
  have h1 : p / g * g + p % g = p := by rw [Nat.mul_comm]; exact Nat.div_add_mod p g
  have h2 : p % g < g := Nat.mod_lt _ (by omega)
  apply List.mem_iff_getElem?.2
  refine ⟨p % g, ?_⟩
  unfold chunkOf
  rw [List.getElem?_drop, List.getElem?_take_of_lt (by rw [Nat.succ_mul]; omega), h1,
    List.getElem?_eq_getElem hp, hpe]

/-- C19 as amended: for a non-empty list of base points, `1 ≤ gsize ≤ 62` and
scalars `k` that do not go beyond the last chunk, `ScalarMultNoDoubleG1` fails
if and only if some scalar has bit length greater than `nbitsQ`, and otherwise
returns a point.  Every table has `2^gsize` entries and every window index is
below `2^gsize`, so no table lookup fails; a scalar longer than `nbitsQ` bits
gives a chunk with a non-zero window at a bit position `i ≥ nbitsQ`, beyond the
`nbitsQ` adders. -/
theorem NoDouble_fails_iff (nbitsQ : Nat) (a : List G) (k : List Nat) (Q_prev : Option G)
    (gsize : Nat) (hn : 0 < nbitsQ) (ha : a ≠ []) (hg1 : 1 ≤ gsize) (hg : gsize ≤ 62)
    (hk : k.length ≤ (a.length + gsize - 1) / gsize * gsize) :
    (ScalarMultNoDoubleG1 nbitsQ a k Q_prev gsize = none ↔ ∃ x ∈ k, nbitsQ < BitLen x) ∧
      ((∀ x ∈ k, BitLen x ≤ nbitsQ) →
        ∃ r, ScalarMultNoDoubleG1 nbitsQ a k Q_prev gsize = some r) ∧
      (∀ (b : List G) (l : List Nat) (j i : Nat), ∃ t, NewTableG1 b gsize false = some t ∧
        getBit (chunkOf l gsize j) i < t.data.length) ∧
      ((∃ x ∈ k, nbitsQ < BitLen x) → ∃ j i, nbitsQ ≤ i ∧
        getBit (chunkOf (k ++ List.replicate
          ((a.length + gsize - 1) / gsize * gsize - k.length) 0) gsize j) i ≠ 0) := by
  have hret : (∀ x ∈ k, BitLen x ≤ nbitsQ) →
      ∃ r, ScalarMultNoDoubleG1 nbitsQ a k Q_prev gsize = some r :=
    fun hbits => ⟨_, ScalarMultNoDoubleG1_eq a k Q_prev hn hg1 hg ha hk hbits⟩
  refine ⟨?_, hret, ?_, ?_⟩
  · constructor
    · intro hnone
      by_contra hno
      have hbits : ∀ x ∈ k, BitLen x ≤ nbitsQ := by
        intro x hx
        by_contra hlt
        exact hno ⟨x, hx, by omega⟩
      obtain ⟨r, hr⟩ := hret hbits
      rw [hnone] at hr
      exact absurd hr (by simp)
    · rintro ⟨x, hx, hlt⟩
      cases hres : ScalarMultNoDoubleG1 nbitsQ a k Q_prev gsize with
      | none => rfl
      | some r =>
        have := BitLen_le_of_ScalarMultNoDoubleG1 a k Q_prev hg1 hg ha hk hres x hx
        omega
  · intro b l j i
    obtain ⟨t, ht, hlen, _⟩ := NewTableG1_spec b hg
    refine ⟨t, ht, ?_⟩
    have hcl := chunkOf_length_le l gsize j
    have h1 : getBit (chunkOf l gsize j) i < 2 ^ (chunkOf l gsize j).length :=
      getBit_lt (by omega) i
    have h2 : 2 ^ (chunkOf l gsize j).length ≤ 2 ^ gsize :=
      Nat.pow_le_pow_right (by norm_num) hcl
    omega
  · rintro ⟨x, hx, hlt⟩
    obtain ⟨j, hj⟩ := exists_chunk_of_mem (g := gsize) hg1
      (List.mem_append_left (List.replicate
        ((a.length + gsize - 1) / gsize * gsize - k.length) 0) hx)
    have hcl := chunkOf_length_le (k ++ List.replicate
      ((a.length + gsize - 1) / gsize * gsize - k.length) 0) gsize j
    have hm := BitLen_le_getMsb hj
    exact ⟨j, _, by omega, getBit_top_ne_zero (by omega) (by omega)⟩

end Failure

/-! ## Doublings of the no-doubling strategy -/

section Doublings

variable {G : Type} [AddCommMonoid G] [Codec G]

omit [AddCommMonoid G] [Codec G] in
theorem addBitsD_eq [Add G] (t : TableG1 G) (ks : List Nat) : ∀ (n : Nat) (Q : List G) (d : Nat),
    addBitsD t ks n (Q, d) = (addBits t ks n Q).map fun Q1 => (Q1, d) := by
  intro n
  induction n with
  | zero => intro Q d; rfl
  | succ n ih =>
    intro Q d
    unfold addBitsD addBits
    split
    · cases Q[n]? with
      | none => rfl
      | some q =>
        cases t.data[getBit ks n]? with
        | none => rfl
        | some e => simp only [Option.some_bind, ih]
    · exact ih Q d

omit [AddCommMonoid G] [Codec G] in
theorem consolidateD_loop_eq [Add G] (Q : List G) : ∀ (n : Nat) (R : G) (d : Nat),
    consolidateD.loop Q n (R, d) = (consolidate.loop Q n R).map fun R1 => (R1, d + n) := by
  intro n
  induction n with
  | zero => intro R d; rfl
  | succ n ih =>
    intro R d
    unfold consolidateD.loop consolidate.loop
    cases Q[n]? with
    | none => rfl
    | some q =>
      simp only [Option.some_bind, ih]
      rw [show d + 1 + n = d + (n + 1) by omega]

omit [AddCommMonoid G] [Codec G] in
theorem consolidateD_eq [Add G] (Q : List G) (nbitsQ : Nat) (Q_prev : Option G) (d : Nat) :
    consolidateD Q nbitsQ Q_prev d
      = (consolidate Q nbitsQ Q_prev).map fun r => (r, d + (nbitsQ - 1)) := by
  unfold consolidateD consolidate
  split
  · rfl
  · cases Q[nbitsQ - 1]? with
    | none => rfl
    | some R => simp only [Option.some_bind, consolidateD_loop_eq, Option.map_map,
        Function.comp_def]

omit [AddCommMonoid G] [Codec G] in
theorem MulTableNoDoubleG1D_loop_eq [Add G] (t : List (TableG1 G)) (k_ext : List Nat)
    (gsize : Nat) (Q0 : List G) (d : Nat) : ∀ n,
    MulTableNoDoubleG1D.loop t k_ext gsize (Q0, d) n
      = (MulTableNoDoubleG1.loop t k_ext gsize Q0 n).map fun Q => (Q, d) := by
  intro n
  induction n with
  | zero => rfl
  | succ n ih =>
    unfold MulTableNoDoubleG1D.loop MulTableNoDoubleG1.loop
    rw [ih]
    cases MulTableNoDoubleG1.loop t k_ext gsize Q0 n with
    | none => rfl
    | some Q =>
      simp only [Option.map_some', Option.some_bind, addBitsD_eq, Option.map_bind,
        Function.comp_def]

theorem ScalarMultNoDoubleG1D_loop_eq (a : List G) (k_ext : List Nat) (gsize : Nat)
    (Q0 : List G) (d : Nat) : ∀ n,
    ScalarMultNoDoubleG1D.loop a k_ext gsize (Q0, d) n
      = (ScalarMultNoDoubleG1.loop a k_ext gsize Q0 n).map fun Q => (Q, d) := by
  intro n
  induction n with
  | zero => rfl
  | succ n ih =>
    unfold ScalarMultNoDoubleG1D.loop ScalarMultNoDoubleG1.loop
    rw [ih]
    cases ScalarMultNoDoubleG1.loop a k_ext gsize Q0 n with
    | none => rfl
    | some Q =>
      simp only [Option.map_some', Option.some_bind, addBitsD_eq, Option.map_bind,
        Function.comp_def]

omit [Codec G] in
theorem MulTableNoDoubleG1D_eq (nbitsQ : Nat) (t : List (TableG1 G)) (k : List Nat)
    (Q_prev : Option G) (gsize : Nat) :
    MulTableNoDoubleG1D nbitsQ t k Q_prev gsize
      = (MulTableNoDoubleG1 nbitsQ t k Q_prev gsize).map fun r => (r, nbitsQ - 1) := by
  unfold MulTableNoDoubleG1D MulTableNoDoubleG1
  simp only [MulTableNoDoubleG1D_loop_eq]
  cases MulTableNoDoubleG1.loop t (k ++ List.replicate (t.length * gsize - k.length) 0) gsize
    (List.replicate nbitsQ 0) t.length with
  | none => rfl
  | some Q => simp only [Option.map_some', Option.some_bind, consolidateD_eq, Nat.zero_add]

theorem ScalarMultNoDoubleG1D_eq (nbitsQ : Nat) (a : List G) (k : List Nat)
    (Q_prev : Option G) (gsize : Nat) :
    ScalarMultNoDoubleG1D nbitsQ a k Q_prev gsize
      = (ScalarMultNoDoubleG1 nbitsQ a k Q_prev gsize).map fun r => (r, nbitsQ - 1) := by
  unfold ScalarMultNoDoubleG1D ScalarMultNoDoubleG1
  split
  · rfl
  · simp only [ScalarMultNoDoubleG1D_loop_eq, addBitsD_eq, consolidateD_eq, Option.map_bind,
      Function.comp_def, Option.bind_map, Nat.zero_add]

theorem MulTableNoDoubleG1_returns {Ps : List (List G)} {ts : List (TableG1 G)}
    (k : List Nat) (Q_prev : Option G) {gsize nbitsQ : Nat} (hn : 0 < nbitsQ) (hg : gsize ≤ 62)
    (hts : ts.map some = Ps.map fun P => NewTableG1 P gsize false)
    (hk : k.length ≤ ts.length * gsize) (hbits : ∀ x ∈ k, BitLen x ≤ nbitsQ) :
    ∃ r, MulTableNoDoubleG1 nbitsQ ts k Q_prev gsize = some r := by
  have hbits1 : ∀ x ∈ k ++ List.replicate (ts.length * gsize - k.length) 0,
      BitLen x ≤ nbitsQ := by
    intro x hx
    rcases List.mem_append.1 hx with h | h
    · exact hbits x h
    · rw [(List.mem_replicate.1 h).2, BitLen_zero]; omega
  obtain ⟨Q, hQ, hQlen, _⟩ := MulTableNoDoubleG1_loop_eq _ hg hts hbits1 ts.length le_rfl
    (by simp; omega)
  refine ⟨addPrev Q_prev (∑ i in Finset.range nbitsQ, 2 ^ i • Q.getD i 0), ?_⟩
  unfold MulTableNoDoubleG1
  simp only []
  rw [hQ, Option.some_bind, consolidate_eq Q hn hQlen Q_prev]

/-- C18: with the executed doublings `R + R` counted, a call of
`MulTableNoDoubleG1` or of `ScalarMultNoDoubleG1` on admissible input (window
size at most 62, scalars of at most `nbitsQ` bits within the chunks) returns
with exactly `nbitsQ - 1` doublings; whatever the tables and the scalars, a call
that returns has counted `nbitsQ - 1` doublings; folding a table into the adders
leaves the counter unchanged and `n` iterations of the consolidation loop add
`n` to it. -/
theorem NoDouble_doublings (nbitsQ : Nat) (Q_prev : Option G) (gsize : Nat) (hn : 0 < nbitsQ)
    (hg : gsize ≤ 62) :
    (∀ (Ps : List (List G)) (ts : List (TableG1 G)) (k : List Nat),
      (ts.map some = Ps.map fun P => NewTableG1 P gsize false) →
      k.length ≤ ts.length * gsize → (∀ x ∈ k, BitLen x ≤ nbitsQ) →
      ∃ r, MulTableNoDoubleG1D nbitsQ ts k Q_prev gsize = some (r, nbitsQ - 1)) ∧
    (∀ (a : List G) (k : List Nat), a ≠ [] → 1 ≤ gsize →
      k.length ≤ (a.length + gsize - 1) / gsize * gsize → (∀ x ∈ k, BitLen x ≤ nbitsQ) →
      ∃ r, ScalarMultNoDoubleG1D nbitsQ a k Q_prev gsize = some (r, nbitsQ - 1)) ∧
    (∀ (ts : List (TableG1 G)) (k : List Nat),
      MulTableNoDoubleG1D nbitsQ ts k Q_prev gsize
        = (MulTableNoDoubleG1 nbitsQ ts k Q_prev gsize).map fun r => (r, nbitsQ - 1)) ∧
    (∀ (a : List G) (k : List Nat),
      ScalarMultNoDoubleG1D nbitsQ a k Q_prev gsize
        = (ScalarMultNoDoubleG1 nbitsQ a k Q_prev gsize).map fun r => (r, nbitsQ - 1)) ∧
    (∀ (t : TableG1 G) (ks : List Nat) (n : Nat) (Q : List G) (d : Nat),
      addBitsD t ks n (Q, d) = (addBits t ks n Q).map fun Q1 => (Q1, d)) ∧
    ∀ (Q : List G) (n : Nat) (R : G) (d : Nat),
      consolidateD.loop Q n (R, d) = (consolidate.loop Q n R).map fun R1 => (R1, d + n) := by
  refine ⟨?_, ?_, fun ts k => MulTableNoDoubleG1D_eq nbitsQ ts k Q_prev gsize,
    fun a k => ScalarMultNoDoubleG1D_eq nbitsQ a k Q_prev gsize,
    fun t ks n Q d => addBitsD_eq t ks n Q d, fun Q n R d => consolidateD_loop_eq Q n R d⟩
  · intro Ps ts k hts hk hbits
    obtain ⟨r, hr⟩ := MulTableNoDoubleG1_returns k Q_prev hn hg hts hk hbits
    exact ⟨r, by rw [MulTableNoDoubleG1D_eq, hr]; rfl⟩
  · intro a k ha hg1 hk hbits
    exact ⟨_, by rw [ScalarMultNoDoubleG1D_eq,
      ScalarMultNoDoubleG1_eq a k Q_prev hn hg1 hg ha hk hbits]; rfl⟩

end Doublings

/-! ## Evaluations on the test points -/

set_option maxRecDepth 100000

/-- Witness of C1: three points with the scalars `(2, 0, 1)` and `gsize = 3`
give `2·P0 + P2`. -/
theorem ScalarMultG1_msm_witness :
    ScalarMultG1 [P0, P1, P2] [2, 0, 1] none 3 = some (2 • P0 + P2) ∧
      ScalarMultG1 [P0, P1, P2] [2, 0, 1] (some P1) 3 = some (2 • P0 + P2 + P1) :=
  have h := ScalarMultG1_msm [P0, P1, P2] [2, 0, 1] 3 (by decide) (by decide) (by decide)
    (by decide)
  ⟨h.1.trans (by decide), (h.2 P1).trans (by decide)⟩

/-- Counterexample to C2 as stated: with `gsize = 63` the shift `1<<gsize`
is negative, the table has the single entry `0`, and `ScalarMultNoDoubleG1`
fails on the scalar `1`, whose bit length is within `nbitsQ = 254`. -/
theorem ScalarMultNoDoubleG1_wide_window :
    (∀ x ∈ [1], BitLen x ≤ 254) ∧
      ScalarMultNoDoubleG1 254 [P0] [1] none 63 = none := by
  decide

/-- Witness of C2 as amended. -/
theorem ScalarMultNoDoubleG1_msm_witness :
    ScalarMultNoDoubleG1 8 [P0, P1, P2] [2, 0, 1] none 2 = some (msm [2, 0, 1] [P0, P1, P2]) ∧
      ∀ Q_prev, ScalarMultNoDoubleG1 8 [P0, P1, P2] [2, 0, 1] (some Q_prev) 2
        = some (msm [2, 0, 1] [P0, P1, P2] + Q_prev) :=
  ScalarMultNoDoubleG1_msm 8 [P0, P1, P2] [2, 0, 1] 2 (by decide) (by decide) (by decide)
    (by decide) (by decide) (by decide)

/-- Counterexample to C3 as stated: on the scalar `2^254`, one bit longer than
`nbitsQ = 254`, `ScalarMultG1` returns the product and `ScalarMultNoDoubleG1`
fails on the adder index `254`. -/
theorem strategies_differ :
    [2 ^ 254].length = [P0].length ∧
      ScalarMultG1 [P0] [2 ^ 254] none 1 = some (msm [2 ^ 254] [P0]) ∧
      ScalarMultNoDoubleG1 254 [P0] [2 ^ 254] none 1 = none :=
  ⟨rfl, ScalarMultG1_eq [P0] [2 ^ 254] none (by decide) (by decide) (by decide) (by decide)
    (by decide), by decide⟩

/-- Witness of C3 as amended: four points in chunks of two, three scalars. -/
theorem strategies_agree_witness :
    ScalarMultG1 [P0, P1, P2, P0] [2, 0, 1] (some P1) 2
        = ScalarMultNoDoubleG1 254 [P0, P1, P2, P0] [2, 0, 1] (some P1) 2 ∧
      (2 ≤ 62 → ∃ r, ScalarMultG1 [P0, P1, P2, P0] [2, 0, 1] (some P1) 2 = some r) :=
  strategies_agree 254 [P0, P1, P2, P0] [2, 0, 1] (some P1) 2 (by decide) (by decide)
    (by decide) (by decide) (by decide) (by decide)

/-- Counterexample to C4 as stated: with `gsize = 63` the table has one entry,
not `2^63`. -/
theorem NewTableG1_wide_window :
    (NewTableG1 [P0] 63 false).map (fun t => t.data.length) = some 1 ∧ 1 ≠ 2 ^ 63 := by
  decide

/-- Witness of C4 as amended. -/
theorem NewTableG1_subset_sums_witness :
    ∃ t, NewTableG1 [P0, P1] 3 false = some t ∧ t.data.length = 2 ^ 3 ∧
      (∀ S : Finset Nat, S ⊆ Finset.range 3 →
        t.data[∑ b in S, 2 ^ b]? = some (∑ b in S, [P0, P1].getD b 0)) ∧
      t.data[0]? = some 0 ∧ ∀ b, b < 3 → t.data[2 ^ b]? = some ([P0, P1].getD b 0) :=
  NewTableG1_subset_sums [P0, P1] 3 (by decide)

/-- Witness of C5. -/
theorem ScalarMultG1_chaining_witness :
    ScalarMultG1 [P0, P1, P2] [2, 0, 1] (some P1) 2
        = (ScalarMultG1 [P0, P1, P2] [2, 0, 1] none 2).map (fun r => P1 + r) ∧
      (2 ≤ 62 → ∃ r, ScalarMultG1 [P0, P1, P2] [2, 0, 1] none 2 = some r ∧
        ScalarMultG1 [P0, P1, P2] [2, 0, 1] (some P1) 2 = some (P1 + r)) ∧
      ∀ r, ScalarMultNoDoubleG1 254 [P0, P1, P2] [2, 0, 1] none 2 = some r →
        ScalarMultNoDoubleG1 254 [P0, P1, P2] [2, 0, 1] (some P1) 2 = some (P1 + r) :=
  ScalarMultG1_chaining 254 [P0, P1, P2] [2, 0, 1] P1 2 (by decide) (by decide) (by decide)

/-- C6, evaluation at the failing input: with three points, `gsize = 1` and the
all-zero scalar vector `[0]`, `ScalarMultG1` slices `k[1:2]` out of range and
returns no point, with or without an accumulator, while the all-zero vector of
length three gives the identity. -/
theorem ScalarMultG1_short_zeros :
    ScalarMultG1 [P0, P1, P2] [0] none 1 = none ∧
      ScalarMultG1 [P0, P1, P2] [0] (some P1) 1 = none ∧
      ScalarMultG1 [P0, P1, P2] [0, 0, 0] none 1 = some 0 := by
  decide

/-- Witness of C7: window sizes 2 and 4. -/
theorem ScalarMultG1_window_invariance_witness :
    ∃ r, ScalarMultG1 [P0, P1, P2] [2, 0, 1] none 2 = some r ∧
      ScalarMultG1 [P0, P1, P2] [2, 0, 1] none 4 = some r :=
  ScalarMultG1_window_invariance [P0, P1, P2] [2, 0, 1] 2 4 (by decide) (by decide)
    (by decide) (by decide) (by decide) (by decide)

/-- Witness of C8. -/
theorem ScalarMultG1_linear_witness :
    ((ScalarMultG1 [P0, P1, P2] [2, 0, 1] none 2).bind fun x =>
        (ScalarMultG1 [P0, P1, P2] [1, 1, 5] none 2).map fun y => x + y)
        = ScalarMultG1 [P0, P1, P2] (List.zipWith (fun x y => x + y) [2, 0, 1] [1, 1, 5]) none 2
      ∧
      (2 ≤ 62 → ∃ x y, ScalarMultG1 [P0, P1, P2] [2, 0, 1] none 2 = some x ∧
        ScalarMultG1 [P0, P1, P2] [1, 1, 5] none 2 = some y ∧
        ScalarMultG1 [P0, P1, P2] (List.zipWith (fun x y => x + y) [2, 0, 1] [1, 1, 5]) none 2
          = some (x + y)) :=
  ScalarMultG1_linear [P0, P1, P2] [2, 0, 1] [1, 1, 5] 2 (by decide) (by decide) (by decide)
    (by decide)

/-- C9, evaluation at the failing input: with three points, `gsize = 1` and the
scalars `[1]`, `ScalarMultG1` slices `k[1:2]` out of range and returns no point,
while the zero-padded scalars `[1, 0, 0]` give `P0`, and so does
`ScalarMultNoDoubleG1` on `[1]`, which pads the scalars itself. -/
theorem ScalarMultG1_short_scalars :
    ScalarMultG1 [P0, P1, P2] [1] none 1 = none ∧
      ScalarMultG1 [P0, P1, P2] [1, 0, 0] none 1 = some P0 ∧
      ScalarMultNoDoubleG1 254 [P0, P1, P2] [1] none 1 = some P0 :=
  ⟨by decide, by decide,
    (ScalarMultNoDoubleG1_eq [P0, P1, P2] [1] none (by decide) (by decide) (by decide)
      (by decide) (by decide) (by decide)).trans (by decide)⟩

/-- Counterexample to C10 as stated: `ScalarMultNoDoubleG1` fails on the scalar
`2^254`, `ScalarMultG1` fails with `gsize = 63`, and it fails on scalars that go
beyond the last chunk. -/
theorem strategies_not_total :
    ScalarMultNoDoubleG1 254 [P0] [2 ^ 254] none 1 = none ∧
      ScalarMultG1 [P0] [1] none 63 = none ∧
      ScalarMultG1 [P0] [0, 1] none 1 = none := by
  decide

/-- Witness of C10 as amended. -/
theorem strategies_return_witness :
    ((([P0, P1, P2].length + 2 - 1) / 2 - 1) * 2 ≤ [2, 0, 1].length →
        ∃ r, ScalarMultG1 [P0, P1, P2] [2, 0, 1] none 2 = some r) ∧
      ((∀ x ∈ [2, 0, 1], BitLen x ≤ 254) →
        ∃ r, ScalarMultNoDoubleG1 254 [P0, P1, P2] [2, 0, 1] none 2 = some r) :=
  strategies_return 254 [P0, P1, P2] [2, 0, 1] none 2 (by decide) (by decide) (by decide)
    (by decide) (by decide)

/-- Witness of C11. -/
theorem ScalarMult_empty_witness :
    (([] : List Pt3).length + 3 - 1) / 3 = 0 ∧
      (((0 : Nat) : Int) - 1) * ((3 : Nat) : Int) < 0 ∧
      sliceFrom ([] : List Pt3) ((((0 : Nat) : Int) - 1) * ((3 : Nat) : Int)) = none ∧
      ScalarMultG1 ([] : List Pt3) [2, 0, 1] none 3 = none ∧
      ScalarMultNoDoubleG1 254 ([] : List Pt3) [2, 0, 1] none 3 = none :=
  ScalarMult_empty 254 [2, 0, 1] none 3 (by decide)

/-- Counterexample to C13 as stated: with `gsize = 63` the table built from
`[P0]` is the single entry `0`, and `MulTableG1` on the scalar `1` fails on the
lookup of entry `1`. -/
theorem MulTableG1_wide_window :
    (NewTableG1 [P0] 63 false).map (fun t => t.data) = some [0] ∧
      MulTableG1 ⟨[(0 : Pt3)]⟩ [1] none 63 = none := by
  decide

/-- Witness of C13 as amended. -/
theorem MulTableG1_msm_witness :
    ∃ t, NewTableG1 [P0, P1] 3 false = some t ∧
      MulTableG1 t [2, 5] none 3 = some (msm [2, 5] [P0, P1]) ∧
      (∀ Q_prev, MulTableG1 t [2, 5] (some Q_prev) 3 = some (msm [2, 5] [P0, P1] + Q_prev)) ∧
      ((∀ x ∈ [2, 5], x = 0) →
        getMsb ([2, 5] ++ List.replicate (3 - [2, 5].length) 0) = 0 ∧
        MulTableG1 t [2, 5] none 3 = some 0 ∧
        ∀ Q_prev, MulTableG1 t [2, 5] (some Q_prev) 3 = some Q_prev) :=
  MulTableG1_msm [P0, P1] [2, 5] 3 (by decide) (by decide)

/-- Witness of C17. -/
theorem getBit_spec_witness :
    (∀ j, Bit (getBit [2, 0, 1] 0) j = Bit ([2, 0, 1].getD j 0) 0) ∧
      (∀ j, [2, 0, 1].length ≤ j → Bit (getBit [2, 0, 1] 0) j = 0) ∧
      getBit [2, 0, 1] 0 < 2 ^ [2, 0, 1].length ∧
      (getBit [2, 0, 1] 0 = 0 ↔ ∀ x ∈ [2, 0, 1], Bit x 0 = 0) :=
  getBit_spec [2, 0, 1] 0 (by decide)

/-- Counterexample to C20 as stated: with `gsize = 64` the common table of two
lists with the same first 64 elements has one entry, not `2^64`. -/
theorem NewTableG1_prefix_wide_window :
    [P0, P1].take 64 = [P0, P1].take 64 ∧
      (NewTableG1 [P0, P1] 64 false).map (fun t => t.data.length) = some 1 ∧
      1 ≠ 2 ^ 64 := by
  decide

/-- Witness of C20 as amended: the third point lies beyond the window. -/
theorem NewTableG1_prefix_witness :
    NewTableG1 [P0, P1, P2] 2 false = NewTableG1 [P0, P1] 2 false ∧
      (2 ≤ 62 → ∃ t, NewTableG1 [P0, P1, P2] 2 false = some t ∧
        NewTableG1 [P0, P1] 2 false = some t ∧ t.data.length = 2 ^ 2) :=
  NewTableG1_prefix [P0, P1, P2] [P0, P1] 2 (by decide)

/-- Counterexample to C12 as stated: with `gsize = 63` and encodings of one
byte the serialized table has length `1`, not `1 * 2^63`. -/
theorem Marshal_wide_window :
    (∀ p : Int, (Codec.Marshal p).length = 1) ∧
      (NewTableG1 [(5 : Int)] 63 false).map (fun t => t.Marshal.length) = some 1 ∧
      1 ≠ 1 * 2 ^ 63 :=
  ⟨fun _ => rfl, by decide, by decide⟩

/-- Witness of C12 as amended: integer points with encodings of one byte. -/
theorem Marshal_layout_witness :
    ∃ t, NewTableG1 [(5 : Int), 7] 2 false = some t ∧
      t.Marshal = (t.data.map Codec.Marshal).flatten ∧
      t.Marshal.length = 1 * 2 ^ 2 ∧
      ∀ i, i < 2 ^ 2 → ∃ e, t.data[i]? = some e ∧
        (t.Marshal.take ((i + 1) * 1)).drop (i * 1) = Codec.Marshal e :=
  Marshal_layout [(5 : Int), 7] 2 false 1 (fun _ => rfl) (by decide)

/-- Counterexample to C14 as stated: with `gsize = 63` the table built from
`[P0]` is the single entry `0`, and `MulTableNoDoubleG1` fails on the scalar `1`,
whose bit length is within `nbitsQ = 254`. -/
theorem MulTableNoDoubleG1_wide_window :
    (NewTableG1 [P0] 63 false).map (fun t => t.data) = some [0] ∧
      (∀ x ∈ [1], BitLen x ≤ 254) ∧
      MulTableNoDoubleG1 254 [⟨[(0 : Pt3)]⟩] [1] none 63 = none := by
  decide

/-- Witness of C14 as amended: two tables, three scalars. -/
theorem MulTableNoDoubleG1_msm_witness :
    (∃ ts : List (TableG1 Pt3),
      ts.map some = [[P0, P1], [P2]].map fun P => NewTableG1 P 2 false) ∧
    ∀ ts : List (TableG1 Pt3),
      (ts.map some = [[P0, P1], [P2]].map fun P => NewTableG1 P 2 false) →
      MulTableNoDoubleG1 254 ts [2, 0, 1] none 2
        = some (addPrev none (∑ j in Finset.range [[P0, P1], [P2]].length,
            ∑ i in Finset.range 2,
              [2, 0, 1].getD (j * 2 + i) 0 • ([[P0, P1], [P2]].getD j []).getD i 0)) ∧
      ∃ Q, MulTableNoDoubleG1.loop ts ([2, 0, 1] ++ List.replicate
            (ts.length * 2 - [2, 0, 1].length) 0) 2 (List.replicate 254 0) ts.length = some Q ∧
        Q.length = 254 ∧
        (∀ b, b < 254 → Q.getD b 0 = ∑ j in Finset.range ts.length,
          (ts.getD j ⟨[]⟩).data.getD
            (getBit (chunkOf ([2, 0, 1] ++ List.replicate
              (ts.length * 2 - [2, 0, 1].length) 0) 2 j) b) 0) ∧
        consolidate Q 254 none
          = some (addPrev none (∑ b in Finset.range 254, 2 ^ b • Q.getD b 0)) :=
  MulTableNoDoubleG1_msm 254 [[P0, P1], [P2]] [2, 0, 1] none 2 (by decide) (by decide)
    (by decide) (by decide)

/-- Witness of C15: three points in chunks of two. -/
theorem NoDouble_tables_agree_witness :
    (∃ ts : List (TableG1 Pt3), ts.length = ([P0, P1, P2].length + 2 - 1) / 2 ∧
      ∀ j, j < ([P0, P1, P2].length + 2 - 1) / 2 →
        ts[j]? = NewTableG1 (([P0, P1, P2].take ((j + 1) * 2)).drop (j * 2)) 2 false) ∧
    ∀ ts : List (TableG1 Pt3), ts.length = ([P0, P1, P2].length + 2 - 1) / 2 →
      (∀ j, j < ([P0, P1, P2].length + 2 - 1) / 2 →
        ts[j]? = NewTableG1 (([P0, P1, P2].take ((j + 1) * 2)).drop (j * 2)) 2 false) →
      ScalarMultNoDoubleG1 254 [P0, P1, P2] [2, 0, 1] (some P1) 2
        = MulTableNoDoubleG1 254 ts [2, 0, 1] (some P1) 2 :=
  NoDouble_tables_agree 254 [P0, P1, P2] [2, 0, 1] (some P1) 2 (by decide) (by decide)
    (by decide)

/-- Witness of C18: `nbitsQ = 254` and `gsize = 2` give 253 doublings. -/
theorem NoDouble_doublings_witness :
    (∀ (Ps : List (List Pt3)) (ts : List (TableG1 Pt3)) (k : List Nat),
      (ts.map some = Ps.map fun P => NewTableG1 P 2 false) →
      k.length ≤ ts.length * 2 → (∀ x ∈ k, BitLen x ≤ 254) →
      ∃ r, MulTableNoDoubleG1D 254 ts k none 2 = some (r, 254 - 1)) ∧
    (∀ (a : List Pt3) (k : List Nat), a ≠ [] → 1 ≤ 2 →
      k.length ≤ (a.length + 2 - 1) / 2 * 2 → (∀ x ∈ k, BitLen x ≤ 254) →
      ∃ r, ScalarMultNoDoubleG1D 254 a k none 2 = some (r, 254 - 1)) ∧
    (∀ (ts : List (TableG1 Pt3)) (k : List Nat),
      MulTableNoDoubleG1D 254 ts k none 2
        = (MulTableNoDoubleG1 254 ts k none 2).map fun r => (r, 254 - 1)) ∧
    (∀ (a : List Pt3) (k : List Nat),
      ScalarMultNoDoubleG1D 254 a k none 2
        = (ScalarMultNoDoubleG1 254 a k none 2).map fun r => (r, 254 - 1)) ∧
    (∀ (t : TableG1 Pt3) (ks : List Nat) (n : Nat) (Q : List Pt3) (d : Nat),
      addBitsD t ks n (Q, d) = (addBits t ks n Q).map fun Q1 => (Q1, d)) ∧
    ∀ (Q : List Pt3) (n : Nat) (R : Pt3) (d : Nat),
      consolidateD.loop Q n (R, d) = (consolidate.loop Q n R).map fun R1 => (R1, d + n) :=
  NoDouble_doublings 254 none 2 (by decide) (by decide)

/-- Counterexample to C19 as stated: with `gsize = 64` no scalar of `[0, 3]` is
longer than `nbitsQ = 254` bits and `ScalarMultNoDoubleG1` returns no point all
the same: it fails on the lookup of entry `2` of the one-entry table. -/
theorem NoDouble_fails_wide_window :
    (¬ ∃ x ∈ [0, 3], 254 < BitLen x) ∧
      ScalarMultNoDoubleG1 254 [P0, P1] [0, 3] none 64 = none := by
  decide

/-- Witness of C19 as amended. -/
theorem NoDouble_fails_iff_witness :
    (ScalarMultNoDoubleG1 254 [P0, P1, P2] [2, 0, 1] none 2 = none
        ↔ ∃ x ∈ [2, 0, 1], 254 < BitLen x) ∧
      ((∀ x ∈ [2, 0, 1], BitLen x ≤ 254) →
        ∃ r, ScalarMultNoDoubleG1 254 [P0, P1, P2] [2, 0, 1] none 2 = some r) ∧
      (∀ (b : List Pt3) (l : List Nat) (j i : Nat), ∃ t, NewTableG1 b 2 false = some t ∧
        getBit (chunkOf l 2 j) i < t.data.length) ∧
      ((∃ x ∈ [2, 0, 1], 254 < BitLen x) → ∃ j i, 254 ≤ i ∧
        getBit (chunkOf ([2, 0, 1] ++ List.replicate
          (([P0, P1, P2].length + 2 - 1) / 2 * 2 - [2, 0, 1].length) 0) 2 j) i ≠ 0) :=
  NoDouble_fails_iff 254 [P0, P1, P2] [2, 0, 1] none 2 (by decide) (by decide) (by decide)
    (by decide) (by decide)

end Prover
